import Mathlib

/-!
# Verification of the ts-module-isolation graph-analysis engine

Shallow embedding of the repository's source (src/types.ts: `GraphAnalyzer`,
src/utils.ts: `extractModulePrefix`, src/cli.ts: summary fields) into Lean.

JavaScript `Map` and `Set` are modelled as insertion-ordered association
lists / duplicate-free lists, matching JS iteration-order semantics:
`Map.set` on an existing key updates the value in place (keeping the key's
original position), `Set.add` appends a new element at the end and is a
no-op for an existing element.

The recursive DFS routines of the source are embedded with an explicit
fuel parameter for termination; the top-level entry points supply fuel
`(number of adjacency keys) + 1`, which is proved sufficient where a claim
needs completeness of the traversal.
-/

namespace TsModuleIsolation

/-! ## Node `path.posix.dirname`, translated from Node's implementation,
used by src/utils.ts via `import { dirname } from 'path'`. -/

/-- The index-scanning loop of Node's `path.posix.dirname`: walk indices
`i, i-1, …, 1` (never index 0) looking for the last `'/'` that is followed
by a non-`'/'` character; `matched` records whether only slashes have been
seen so far (from the right). Returns the `end` cut position, or `none`. -/
def dirScan (cs : List Char) : Nat → Bool → Option Nat
  | 0, _ => none
  | Nat.succ i, matched =>
    if cs.getD (Nat.succ i) ' ' = '/' then
      if matched then dirScan cs i true else some (Nat.succ i)
    else dirScan cs i false

/-- Node `path.posix.dirname` (`hasRoot` is `s.data.getD 0 ' ' = '/'`). -/
def posixDirname (s : String) : String :=
  if s.data.isEmpty then "." else
  match dirScan s.data (s.data.length - 1) true with
  | none => if s.data.getD 0 ' ' = '/' then "/" else "."
  | some e => if s.data.getD 0 ' ' = '/' ∧ e = 1 then "//" else ⟨s.data.take e⟩

/-- `.replace(/\\/g, '/')` — normalize backslashes to forward slashes. -/
def normalizeSeps (s : String) : String :=
  ⟨s.data.map (fun c => if c = '\\' then '/' else c)⟩

/-- src/utils.ts `extractModulePrefix`: directory part of the path
(normalized to forward slashes); if the directory is `.`/empty/`/`,
the full module path is used as the prefix. -/
def extractModulePrefix (modulePath : String) : String :=
  if normalizeSeps (posixDirname modulePath) = "." ∨
      normalizeSeps (posixDirname modulePath) = "" ∨
      normalizeSeps (posixDirname modulePath) = "/" then
    modulePath
  else normalizeSeps (posixDirname modulePath)

/-! ## Data model (src/types.ts) -/

/-- src/types.ts `'import' | 'require' | 'dynamic'`. -/
inductive ImportType where
  | Import
  | Require
  | Dynamic
deriving DecidableEq, Repr

/-- src/types.ts `ModuleDependency` (`from`/`to` are Lean keywords, so the
fields are `fromName`/`toName`). -/
structure ModuleDependency where
  fromName : String
  toName : String
  importType : ImportType
  line : Nat
deriving DecidableEq, Repr

/-- src/types.ts `ModuleInfo` (`prefix` is a Lean keyword, so the field is
`modPrefix`). -/
structure ModuleInfo where
  path : String
  name : String
  modPrefix : String
  dependencies : List ModuleDependency
deriving DecidableEq, Repr

/-- src/types.ts `DependencyGraph`: `modules : Map<string, ModuleInfo>` and
`prefixDependencies : Map<string, Set<string>>`, both as insertion-ordered
association lists. -/
structure DependencyGraph where
  modules : List (String × ModuleInfo)
  prefixDependencies : List (String × List String)
deriving DecidableEq, Repr

/-- src/types.ts `FeedbackArc`. -/
structure FeedbackArc where
  fromName : String
  toName : String
  violations : List ModuleDependency
deriving DecidableEq, Repr

/-! ## JS `Map`/`Set` primitives on association lists -/

/-- JS `Map.set`: update in place if the key exists (keeping its position),
else append at the end. -/
def mapSet {α : Type} (k : String) (v : α) : List (String × α) → List (String × α)
  | [] => [(k, v)]
  | (k', v') :: rest => if k = k' then (k, v) :: rest else (k', v') :: mapSet k v rest

/-- JS `Set.add`: append if absent, no-op if present. -/
def setAdd (x : String) (s : List String) : List String :=
  if x ∈ s then s else s ++ [x]

/-- First value bound to a key, or the default for an absent key
(JS `map.get(k) || fallback` where present values are truthy objects). -/
def adjOfA : List (String × List String) → String → List String
  | [], _ => []
  | (k, s) :: rest, v => if k = v then s else adjOfA rest v

/-- Adjacency of a prefix in the graph:
`graph.prefixDependencies.get(current) || new Set()`. -/
def adjOf (g : DependencyGraph) (v : String) : List String :=
  adjOfA g.prefixDependencies v

/-- The key list of `prefixDependencies`
(`Array.from(graph.prefixDependencies.keys())`). -/
def keys (g : DependencyGraph) : List String :=
  g.prefixDependencies.map Prod.fst

/-- Get-or-create the `from` entry and `Set.add` the target, as in
src/types.ts `buildGraph` lines 48–51. -/
def addEdge (f t : String) : List (String × List String) → List (String × List String)
  | [] => [(f, [t])]
  | (k, s) :: rest => if f = k then (k, setAdd t s) :: rest else (k, s) :: addEdge f t rest

/-! ## GraphAnalyzer.buildGraph -/

/-- The body of `buildGraph`'s inner loop (src/types.ts lines 43–53): a
dependency edge whose endpoint prefixes differ is added to the prefix
adjacency; an intra-prefix edge is skipped. -/
def addDepEdge (adj : List (String × List String)) (dep : ModuleDependency) :
    List (String × List String) :=
  if extractModulePrefix dep.fromName ≠ extractModulePrefix dep.toName then
    addEdge (extractModulePrefix dep.fromName) (extractModulePrefix dep.toName) adj
  else adj

/-- The prefix-adjacency fold of `buildGraph` (src/types.ts lines 42–54). -/
def buildAdj (modules : List ModuleInfo) : List (String × List String) :=
  modules.foldl (fun adj mo => mo.dependencies.foldl addDepEdge adj) []

/-- src/types.ts `GraphAnalyzer.buildGraph`. -/
def buildGraph (modules : List ModuleInfo) : DependencyGraph :=
  { modules := modules.foldl (fun m mo => mapSet mo.name mo m) [],
    prefixDependencies := buildAdj modules }

/-! ## GraphAnalyzer.findViolations (attribution of a feedback arc) -/

/-- src/types.ts `GraphAnalyzer.findViolations`: scan all registered modules
whose name's prefix is `fromPrefix` and collect their dependencies whose
target prefix is `toPrefix`, in map-iteration / source order. -/
def findViolations (fromPrefix toPrefix : String) (g : DependencyGraph) :
    List ModuleDependency :=
  g.modules.foldr (fun p acc =>
      (if extractModulePrefix p.2.name = fromPrefix then
      p.2.dependencies.filter (fun dep => decide (extractModulePrefix dep.toName = toPrefix))
    else []) ++ acc) []

/-! ## GraphAnalyzer.dfsForCycles / findFeedbackArcs -/

/-- Sufficient fuel for the recursive DFS routines: one more than the
number of adjacency keys. Every vertex on a DFS call chain except possibly
the last is a freshly visited key, so chains are at most this long. -/
def fuelOf (g : DependencyGraph) : Nat := g.prefixDependencies.length + 1

/-- The neighbor loop of src/types.ts `dfsForCycles` (lines 89–100):
an already-visited neighbor on the recursion stack records a feedback arc;
an unvisited neighbor is recursed into via `rec`. The recursion stack is
passed as the current DFS path (the source's `add`/`delete` bracketing). -/
def dfsScan (g : DependencyGraph)
    (rec : String → List String → List String → List String × List FeedbackArc) :
    List String → String → List String → List String → List String × List FeedbackArc
  | [], _, vis, _ => (vis, [])
  | n :: rest, current, vis, stk =>
    if n ∈ vis then
      if n ∈ stk then
        let r := dfsScan g rec rest current vis stk
        (r.1, { fromName := current, toName := n,
                violations := findViolations current n g } :: r.2)
      else dfsScan g rec rest current vis stk
    else
      let r₁ := rec n vis stk
      let r₂ := dfsScan g rec rest current r₁.1 stk
      (r₂.1, r₁.2 ++ r₂.2)

/-- src/types.ts `GraphAnalyzer.dfsForCycles`, with fuel. -/
def dfsVisit (g : DependencyGraph) :
    Nat → String → List String → List String → List String × List FeedbackArc
  | 0, _, vis, _ => (vis, [])
  | Nat.succ f, current, vis, stk =>
      dfsScan g (dfsVisit g f) (adjOf g current) current (setAdd current vis) (current :: stk)

/-- The prefix loop of src/types.ts `findFeedbackArcs` (lines 68–72). -/
def feedbackLoop (g : DependencyGraph) : List String → List String → List FeedbackArc
  | [], _ => []
  | p :: rest, vis =>
    if p ∈ vis then feedbackLoop g rest vis
    else
      let r := dfsVisit g (fuelOf g) p vis []
      r.2 ++ feedbackLoop g rest r.1

/-- src/types.ts `GraphAnalyzer.findFeedbackArcs`. -/
def findFeedbackArcs (g : DependencyGraph) : List FeedbackArc :=
  feedbackLoop g (keys g) []

/-! ## GraphAnalyzer.isAcyclic -/

/-- The neighbor loop of src/types.ts `hasCycleDFS` (lines 244–252),
returning at the first back edge. -/
def cycleScan (rec : String → List String → List String → List String × Bool) :
    List String → List String → List String → List String × Bool
  | [], vis, _ => (vis, false)
  | n :: rest, vis, stk =>
    if n ∈ vis then
      if n ∈ stk then (vis, true) else cycleScan rec rest vis stk
    else
      let r := rec n vis stk
      if r.2 then (r.1, true) else cycleScan rec rest r.1 stk

/-- src/types.ts `GraphAnalyzer.hasCycleDFS`, with fuel. -/
def hasCycleVisit (g : DependencyGraph) :
    Nat → String → List String → List String → List String × Bool
  | 0, _, vis, _ => (vis, false)
  | Nat.succ f, current, vis, stk =>
      cycleScan (hasCycleVisit g f) (adjOf g current) (setAdd current vis) (current :: stk)

/-- The prefix loop of src/types.ts `isAcyclic` (lines 222–228), returning
`false` at the first cycle found. -/
def acyclicLoop (g : DependencyGraph) : List String → List String → Bool
  | [], _ => true
  | p :: rest, vis =>
    if p ∈ vis then acyclicLoop g rest vis
    else
      let r := hasCycleVisit g (fuelOf g) p vis []
      if r.2 then false else acyclicLoop g rest r.1

/-- src/types.ts `GraphAnalyzer.isAcyclic`. -/
def isAcyclic (g : DependencyGraph) : Bool :=
  acyclicLoop g (keys g) []

/-! ## GraphAnalyzer.findStronglyConnectedComponents (Kosaraju) -/

/-- The shared neighbor loop of `fillOrder` (lines 175–179) and
`dfsComponent` (lines 209–213): recurse via `rec` into each unvisited
neighbor, threading the visited set and one more accumulator (the
finishing stack for `fillOrder`, the component for `dfsComponent`). -/
def scanUnvisited (rec : String → List String → List String → List String × List String) :
    List String → List String → List String → List String × List String
  | [], vis, acc => (vis, acc)
  | n :: rest, vis, acc =>
    if n ∈ vis then scanUnvisited rec rest vis acc
    else
      let r := rec n vis acc
      scanUnvisited rec rest r.1 r.2

/-- src/types.ts `GraphAnalyzer.fillOrder`, with fuel: visit, recurse into
unvisited neighbors, then push the vertex onto the finishing stack. -/
def fillOrder (g : DependencyGraph) :
    Nat → String → List String → List String → List String × List String
  | 0, _, vis, stk => (vis, stk)
  | Nat.succ f, vertex, vis, stk =>
    let r := scanUnvisited (fillOrder g f) (adjOf g vertex) (setAdd vertex vis) stk
    (r.1, r.2 ++ [vertex])

/-- The first pass of `findStronglyConnectedComponents` (lines 149–153). -/
def fillLoop (g : DependencyGraph) :
    List String → List String → List String → List String × List String
  | [], vis, stk => (vis, stk)
  | p :: rest, vis, stk =>
    if p ∈ vis then fillLoop g rest vis stk
    else
      let r := fillOrder g (fuelOf g) p vis stk
      fillLoop g rest r.1 r.2

/-- src/types.ts `GraphAnalyzer.transposeGraph`. -/
def transposeGraph (g : DependencyGraph) : List (String × List String) :=
  g.prefixDependencies.foldl (fun acc p => p.2.foldl (fun acc t => addEdge t p.1 acc) acc) []

/-- src/types.ts `GraphAnalyzer.dfsComponent`, with fuel: add the vertex to
the visited set and the component, then recurse into unvisited neighbors of
the transposed graph. -/
def dfsComponent (t : List (String × List String)) :
    Nat → String → List String → List String → List String × List String
  | 0, _, vis, comp => (vis, comp)
  | Nat.succ f, vertex, vis, comp =>
      scanUnvisited (dfsComponent t f) (adjOfA t vertex) (setAdd vertex vis) (comp ++ [vertex])

/-- The second pass of `findStronglyConnectedComponents` (lines 159–166):
pop the finishing stack (modelled by walking its reversal), starting a new
component at each unvisited vertex. -/
def sccPop (t : List (String × List String)) (fuelT : Nat) :
    List String → List String → List (List String)
  | [], _ => []
  | v :: rest, vis =>
    if v ∈ vis then sccPop t fuelT rest vis
    else
      let r := dfsComponent t fuelT v vis []
      r.2 :: sccPop t fuelT rest r.1

/-- src/types.ts `GraphAnalyzer.findStronglyConnectedComponents`. -/
def findStronglyConnectedComponents (g : DependencyGraph) : List (List String) :=
  let fill := fillLoop g (keys g) [] []
  let t := transposeGraph g
  sccPop t (t.length + 1) fill.2.reverse []

/-! ## GraphAnalyzer.detectViolations -/

/-- src/types.ts `GraphAnalyzer.detectViolations`: for every SCC of size
greater than one, every registered module whose prefix lies in the
component contributes its dependencies whose target prefix also lies in the
component and differs from the module's prefix. -/
def detectViolations (g : DependencyGraph) : List ModuleDependency :=
  (findStronglyConnectedComponents g).foldr (fun component acc =>
    (if 1 < component.length then
      g.modules.foldr (fun p acc' =>
        (if extractModulePrefix p.2.name ∈ component then
          p.2.dependencies.filter (fun dep =>
            decide (extractModulePrefix dep.toName ∈ component ∧
              extractModulePrefix p.2.name ≠ extractModulePrefix dep.toName))
        else []) ++ acc') []
    else []) ++ acc) []

/-! ## Derived artifacts used by the claims -/

/-- The `prefixCount` summary field of src/cli.ts line 46:
`result.graph.prefixDependencies.size`. -/
def summaryPrefixCount (g : DependencyGraph) : Nat :=
  g.prefixDependencies.length

/-- The endpoint pairs of a list of feedback arcs. -/
def arcPairs (arcs : List FeedbackArc) : List (String × String) :=
  arcs.map (fun a => (a.fromName, a.toName))

/-- Delete a set of directed edges from an adjacency structure
(used to state that the feedback arc set is in fact a feedback arc set). -/
def pruneAdj (pairs : List (String × String)) (adj : List (String × List String)) :
    List (String × List String) :=
  adj.map (fun p => (p.1, p.2.filter (fun t => decide ((p.1, t) ∉ pairs))))

/-- The graph with the given arcs deleted from its prefix adjacency. -/
def pruneGraph (g : DependencyGraph) (arcs : List FeedbackArc) : DependencyGraph :=
  { modules := g.modules, prefixDependencies := pruneAdj (arcPairs arcs) g.prefixDependencies }

/-- The well-formedness guaranteed by the TypeScript types: a `Map` has no
duplicate keys and a `Set` has no duplicate elements. -/
def WellFormed (g : DependencyGraph) : Prop :=
  (g.prefixDependencies.map Prod.fst).Nodup ∧ ∀ p ∈ g.prefixDependencies, List.Nodup p.2

/-- The vertices of the prefix graph: every prefix that occurs in the
adjacency structure as the algorithms read it — as a key, or as a member
of some key's adjacency set. -/
def graphPrefixes (g : DependencyGraph) (x : String) : Prop :=
  x ∈ keys g ∨ ∃ k, x ∈ adjOf g k

/-! ## Basic lemmas about the Map/Set primitives -/

@[simp]
theorem mem_setAdd {x y : String} {s : List String} :
    x ∈ setAdd y s ↔ x = y ∨ x ∈ s := by
  unfold setAdd
  split
  · next h =>
    constructor
    · exact fun hx => Or.inr hx
    · rintro (rfl | hx)
      · exact h
      · exact hx
  · simp [or_comm]

theorem subset_setAdd {y : String} {s : List String} : s ⊆ setAdd y s := by
  intro x hx; simp [hx]

theorem setAdd_nodup {y : String} {s : List String} (h : s.Nodup) :
    (setAdd y s).Nodup := by
  unfold setAdd
  split
  · exact h
  · next hy => simpa [List.nodup_append] using ⟨h, hy⟩

theorem adjOfA_addEdge (f t x : String) (adj : List (String × List String)) :
    adjOfA (addEdge f t adj) x =
      if f = x then setAdd t (adjOfA adj x) else adjOfA adj x := by
  induction adj with
  | nil =>
    by_cases hx : f = x <;> simp [addEdge, adjOfA, hx, setAdd]
  | cons p rest ih =>
    obtain ⟨k, s⟩ := p
    by_cases hf : f = k
    · subst hf
      by_cases hx : f = x <;> simp [addEdge, adjOfA, hx]
    · by_cases hx : k = x
      · subst hx
        have hfx : ¬ f = k := hf
        simp [addEdge, adjOfA, hf, hfx]
      · simp [addEdge, adjOfA, hf, hx, ih]

theorem keys_addEdge (f t x : String) (adj : List (String × List String)) :
    x ∈ (addEdge f t adj).map Prod.fst ↔ x = f ∨ x ∈ adj.map Prod.fst := by
  induction adj with
  | nil => simp [addEdge]
  | cons p rest ih =>
    obtain ⟨k, s⟩ := p
    by_cases hf : f = k
    · subst hf
      constructor
      · intro h; simpa [addEdge] using h
      · intro h
        rcases h with rfl | h
        · simp [addEdge]
        · simpa [addEdge] using h
    · simp only [addEdge, if_neg hf, List.map_cons, List.mem_cons, ih]
      tauto

theorem keys_addEdge_nodup {f t : String} {adj : List (String × List String)}
    (h : (adj.map Prod.fst).Nodup) : ((addEdge f t adj).map Prod.fst).Nodup := by
  induction adj with
  | nil => simp [addEdge]
  | cons p rest ih =>
    obtain ⟨k, s⟩ := p
    simp only [List.map_cons, List.nodup_cons] at h
    by_cases hf : f = k
    · subst hf
      simpa [addEdge] using h
    · simp only [addEdge, if_neg hf, List.map_cons, List.nodup_cons]
      refine ⟨fun hk => ?_, ih h.2⟩
      rcases (keys_addEdge f t k rest).mp hk with h1 | h1
      · exact hf h1.symm
      · exact h.1 h1

theorem values_addEdge_nodup {f t : String} {adj : List (String × List String)}
    (h : ∀ p ∈ adj, List.Nodup p.2) :
    ∀ p ∈ addEdge f t adj, List.Nodup p.2 := by
  induction adj with
  | nil =>
    intro p hp
    simp only [addEdge, List.mem_singleton] at hp
    subst hp
    simp [setAdd_nodup]
  | cons q rest ih =>
    intro p hp
    obtain ⟨k, s⟩ := q
    by_cases hf : f = k
    · subst hf
      have hp' : p = (f, setAdd t s) ∨ p ∈ rest := by
        simpa [addEdge] using hp
      rcases hp' with hp1 | hp1
      · rw [hp1]
        exact setAdd_nodup (h (f, s) (by simp))
      · exact h p (List.mem_cons_of_mem _ hp1)
    · have hp' : p = (k, s) ∨ p ∈ addEdge f t rest := by
        simpa [addEdge, hf] using hp
      rcases hp' with hp1 | hp1
      · rw [hp1]
        exact h (k, s) (by simp)
      · exact ih (fun q hq => h q (List.mem_cons_of_mem _ hq)) p hp1

/-! ## Claim C8: `buildGraph` creates no self-loops -/

theorem adjOfA_addDepEdge_self (adj : List (String × List String))
    (dep : ModuleDependency) (p : String) (h : p ∉ adjOfA adj p) :
    p ∉ adjOfA (addDepEdge adj dep) p := by
  unfold addDepEdge
  split
  · next hne =>
    rw [adjOfA_addEdge]
    split
    · next hp =>
      simp only [mem_setAdd]
      rintro (h1 | h1)
      · exact hne (hp.symm ▸ h1 ▸ rfl)
      · exact h h1
    · exact h
  · exact h

theorem foldl_addDepEdge_self {deps : List ModuleDependency}
    {adj : List (String × List String)} {p : String} (h : p ∉ adjOfA adj p) :
    p ∉ adjOfA (deps.foldl addDepEdge adj) p := by
  induction deps generalizing adj with
  | nil => exact h
  | cons d rest ih => exact ih (adjOfA_addDepEdge_self adj d p h)

/-- Claim C8 (confirmed). For every module list, the graph returned by
`buildGraph` contains no self-loop: no prefix is a member of its own
adjacency set, even when a module imports a sibling in the same directory
(such an edge has equal endpoint prefixes and is skipped by
`addDepEdge`). -/
theorem buildGraph_no_self_loop (mods : List ModuleInfo) (p : String) :
    p ∉ adjOf (buildGraph mods) p := by
  show p ∉ adjOfA (buildAdj mods) p
  unfold buildAdj
  have main : ∀ (l : List ModuleInfo) (adj : List (String × List String)),
      p ∉ adjOfA adj p →
      p ∉ adjOfA (l.foldl (fun adj mo => mo.dependencies.foldl addDepEdge adj) adj) p := by
    intro l
    induction l with
    | nil => intro adj h; exact h
    | cons mo rest ih =>
      intro adj h
      exact ih _ (foldl_addDepEdge_self h)
  exact main mods [] (by simp [adjOfA])

/-! ## Claim C7: the `extractPrefix` contract -/

/-- Modelled from the spec's words (§4.1): "strips the final path segment
and returns the remainder" — everything strictly before the last `/`. -/
def specStripFinalSegment (s : String) : String :=
  ⟨(((s.data.reverse.dropWhile (fun c => decide (c ≠ '/'))).drop 1)).reverse⟩

theorem string_eq_empty_iff (s : String) : s = "" ↔ s.data = [] := by
  constructor
  · rintro rfl; rfl
  · intro h
    cases s
    simp only [String.data] at h
    rw [h]

theorem normalizeSeps_ne_empty {d : String} (hd : d ≠ "") : normalizeSeps d ≠ "" := by
  intro h
  rw [string_eq_empty_iff] at h
  simp only [normalizeSeps, List.map_eq_nil_iff] at h
  exact hd ((string_eq_empty_iff d).mpr h)

theorem getD_mem_or (cs : List Char) (i : Nat) :
    cs.getD i ' ' ∈ cs ∨ cs.getD i ' ' = ' ' := by
  rcases Nat.lt_or_ge i cs.length with h | h
  · left
    rw [List.getD_eq_getElem?_getD, List.getElem?_eq_getElem h]
    exact List.getElem_mem h
  · right
    rw [List.getD_eq_getElem?_getD, List.getElem?_eq_none h]
    rfl

theorem dirScan_of_no_slash {cs : List Char} (hcs : '/' ∉ cs) :
    ∀ k m, dirScan cs k m = none := by
  intro k
  induction k with
  | zero => intro m; rfl
  | succ i ih =>
    intro m
    have hne : ¬ cs.getD (i + 1) ' ' = '/' := by
      rcases getD_mem_or cs (i + 1) with h | h
      · exact fun he => hcs (he ▸ h)
      · rw [h]; decide
    simp only [dirScan, if_neg hne]
    exact ih false

theorem posixDirname_of_no_slash {s : String} (hs : s ≠ "") (hsl : '/' ∉ s.data) :
    posixDirname s = "." := by
  unfold posixDirname
  have hdata : ¬ s.data = [] := fun h => hs ((string_eq_empty_iff s).mpr h)
  have hroot : ¬ s.data.getD 0 ' ' = '/' := by
    rcases getD_mem_or s.data 0 with h | h
    · exact fun he => hsl (he ▸ h)
    · rw [h]; decide
  simp only [List.isEmpty_iff, if_neg hdata, dirScan_of_no_slash hsl, if_neg hroot]

/-- Claim C7, part of the contract that does hold: a non-empty name without
a separator is returned unchanged. -/
theorem extractModulePrefix_no_sep {s : String} (hs : s ≠ "") (hsl : '/' ∉ s.data) :
    extractModulePrefix s = s := by
  unfold extractModulePrefix
  rw [posixDirname_of_no_slash hs hsl]
  have : normalizeSeps "." = "." := by decide
  rw [this]
  simp

/-- Claim C7, part of the contract that does hold: the result is non-empty
for a non-empty input. -/
theorem extractModulePrefix_ne_empty {s : String} (hs : s ≠ "") :
    extractModulePrefix s ≠ "" := by
  unfold extractModulePrefix
  split
  · exact hs
  · next h =>
    push_neg at h
    exact h.2.1

theorem dirScan_down {cs : List Char} {e : Nat}
    (hj : ∀ j, e < j → cs.getD j ' ' ≠ '/') :
    ∀ k, e < k → ∀ m, dirScan cs k m = dirScan cs e false := by
  intro k
  induction k with
  | zero => intro h; exact absurd h (Nat.not_lt_zero e)
  | succ i ih =>
    intro hek m
    have hne : ¬ cs.getD (i + 1) ' ' = '/' := hj _ hek
    simp only [dirScan, if_neg hne]
    rcases Nat.lt_or_ge e i with h | h
    · exact ih h false
    · have he : e = i := by omega
      rw [he]

theorem one_le_length_of_ne_nil {l : List Char} (h : l ≠ []) : 1 ≤ l.length := by
  cases l with
  | nil => exact absurd rfl h
  | cons c cs => simp only [List.length_cons]; omega

theorem dirScan_hit (cs : List Char) (e : Nat) (h : cs.getD (e + 1) ' ' = '/') :
    dirScan cs (e + 1) false = some (e + 1) := by
  show (if cs.getD (e + 1) ' ' = '/' then
      (if false = true then dirScan cs e true else some (e + 1))
    else dirScan cs e false) = some (e + 1)
  rw [if_pos h]
  rfl

theorem posixDirname_concat (d b : String) (hd : d ≠ "") (hd3 : d ≠ "/")
    (hb : b ≠ "") (hbs : '/' ∉ b.data) :
    posixDirname (d ++ "/" ++ b) = d := by
  have hdata : (d ++ "/" ++ b).data = d.data ++ '/' :: b.data := by
    rw [String.data_append, String.data_append]
    have h1 : ("/" : String).data = ['/'] := by decide
    rw [h1, List.append_assoc]
    rfl
  have hdlen : 1 ≤ d.data.length :=
    one_le_length_of_ne_nil (fun h => hd ((string_eq_empty_iff d).mpr h))
  have hblen : 1 ≤ b.data.length :=
    one_le_length_of_ne_nil (fun h => hb ((string_eq_empty_iff b).mpr h))
  have hlen : (d.data ++ '/' :: b.data).length = d.data.length + 1 + b.data.length := by
    simp only [List.length_append, List.length_cons]
    omega
  have hslash : (d.data ++ '/' :: b.data).getD d.data.length ' ' = '/' := by
    rw [List.getD_eq_getElem?_getD, List.getElem?_append_right (le_refl _)]
    simp
  have hafter : ∀ j, d.data.length < j → (d.data ++ '/' :: b.data).getD j ' ' ≠ '/' := by
    intro j hj
    rw [List.getD_eq_getElem?_getD, List.getElem?_append_right (by omega)]
    obtain ⟨k, hk⟩ : ∃ k, j - d.data.length = k + 1 := ⟨j - d.data.length - 1, by omega⟩
    rw [hk]
    simp only [List.getElem?_cons_succ]
    rw [← List.getD_eq_getElem?_getD]
    rcases getD_mem_or b.data k with h | h
    · exact fun he => hbs (he ▸ h)
    · rw [h]; decide
  have hscan : dirScan (d.data ++ '/' :: b.data) ((d.data ++ '/' :: b.data).length - 1)
      true = some d.data.length := by
    have hstart : d.data.length < (d.data ++ '/' :: b.data).length - 1 := by
      rw [hlen]; omega
    rw [dirScan_down hafter _ hstart]
    obtain ⟨e, he⟩ : ∃ e, d.data.length = e + 1 := ⟨d.data.length - 1, by omega⟩
    rw [he] at hslash ⊢
    exact dirScan_hit _ e hslash
  unfold posixDirname
  rw [hdata]
  have hne : ¬ (d.data ++ '/' :: b.data).isEmpty = true := by
    rw [List.isEmpty_iff]
    intro h
    have := congrArg List.length h
    rw [hlen] at this
    simp at this
  rw [if_neg hne, hscan]
  have hnotroot : ¬ ((d.data ++ '/' :: b.data).getD 0 ' ' = '/' ∧ d.data.length = 1) := by
    rintro ⟨h0, h1⟩
    apply hd3
    have hleft : (d.data ++ '/' :: b.data).getD 0 ' ' = d.data.getD 0 ' ' := by
      rw [List.getD_eq_getElem?_getD, List.getD_eq_getElem?_getD,
        List.getElem?_append_left (by omega)]
    rw [hleft] at h0
    have hdl : d.data = ['/'] := by
      cases hdl : d.data with
      | nil => rw [hdl] at h1; simp at h1
      | cons c rest =>
        rw [hdl] at h1 h0
        simp only [List.length_cons] at h1
        have hrest : rest = [] := List.length_eq_zero.mp (by omega)
        subst hrest
        simp only [List.getD_cons_zero] at h0
        rw [h0]
    have hde : d = String.mk d.data := by cases d; rfl
    rw [hde, hdl]
  show (if (d.data ++ '/' :: b.data).getD 0 ' ' = '/' ∧ d.data.length = 1 then "//"
    else (⟨List.take d.data.length (d.data ++ '/' :: b.data)⟩ : String)) = d
  rw [if_neg hnotroot]
  have htake : List.take d.data.length (d.data ++ '/' :: b.data) = d.data :=
    List.take_left d.data ('/' :: b.data)
  rw [htake]

/-- The second part of the amended C7 contract: for a name of the shape
`d ++ "/" ++ b` with a non-empty slash-free final segment `b` and a
directory part `d` that is neither empty nor the root (nor normalizes to
them), the final path segment is stripped and the remainder is returned
with separators normalized to forward slashes. -/
theorem extractModulePrefix_concat (d b : String) (hd : d ≠ "")
    (hd2 : normalizeSeps d ≠ ".") (hd3 : normalizeSeps d ≠ "/")
    (hb : b ≠ "") (hbs : '/' ∉ b.data) :
    extractModulePrefix (d ++ "/" ++ b) = normalizeSeps d := by
  have hdslash : d ≠ "/" := by
    rintro rfl
    exact hd3 (by decide)
  unfold extractModulePrefix
  rw [posixDirname_concat d b hd hdslash hb hbs]
  have hcond : ¬ (normalizeSeps d = "." ∨ normalizeSeps d = "" ∨ normalizeSeps d = "/") := by
    push_neg
    exact ⟨hd2, normalizeSeps_ne_empty hd, hd3⟩
  rw [if_neg hcond]

/-- Claim C7 (corrected), counterexample: `"/foo"` contains a separator,
yet `extractModulePrefix` does not strip the final segment — the leading
separator makes `dirname` return `"/"`, so the input is returned whole,
not the remainder `""` (nor `"/"`). -/
theorem extractModulePrefix_counterexample :
    '/' ∈ ("/foo" : String).data ∧
    extractModulePrefix "/foo" = "/foo" ∧
    specStripFinalSegment "/foo" = "" ∧
    extractModulePrefix "/foo" ≠ specStripFinalSegment "/foo" ∧
    extractModulePrefix "/foo" ≠ "/" := by
  refine ⟨by decide, by decide, by decide, by decide, by decide⟩

/-- Claim C7 (corrected), amended statement. `extractModulePrefix` is a
pure total Lean function, hence deterministic. (1) A non-empty name
without a separator is returned unchanged. (2) A name `d ++ "/" ++ b`
whose final segment `b` is non-empty and slash-free, and whose directory
part `d` is non-empty and does not normalize to `"."` or `"/"`, maps to
`d` with separators normalized to forward slashes — the original claim's
"strips the final path segment" clause restricted to names whose directory
part is not the filesystem root, current directory, or empty (on such
names, e.g. `"/foo"`, the whole name is returned instead). (3) The result
is non-empty for every non-empty input. -/
theorem extractModulePrefix_contract :
    (∀ s : String, s ≠ "" → '/' ∉ s.data → extractModulePrefix s = s) ∧
    (∀ d b : String, d ≠ "" → normalizeSeps d ≠ "." → normalizeSeps d ≠ "/" →
      b ≠ "" → '/' ∉ b.data →
      extractModulePrefix (d ++ "/" ++ b) = normalizeSeps d) ∧
    (∀ s : String, s ≠ "" → extractModulePrefix s ≠ "") :=
  ⟨fun _ hs hsl => extractModulePrefix_no_sep hs hsl,
   fun d b hd hd2 hd3 hb hbs => extractModulePrefix_concat d b hd hd2 hd3 hb hbs,
   fun _ hs => extractModulePrefix_ne_empty hs⟩

/-- Witness for the amended C7 contract at concrete inputs. -/
theorem extractModulePrefix_contract_witness :
    extractModulePrefix "globals" = "globals" ∧
    extractModulePrefix ("ui/components" ++ "/" ++ "Button") = normalizeSeps "ui/components" ∧
    extractModulePrefix "a/x" ≠ "" :=
  ⟨extractModulePrefix_contract.1 "globals" (by decide) (by decide),
   extractModulePrefix_contract.2.1 "ui/components" "Button" (by decide) (by decide)
     (by decide) (by decide) (by decide),
   extractModulePrefix_contract.2.2 "a/x" (by decide)⟩

/-! ## Claim C6: the `prefixCount` summary field -/

theorem keys_addDepEdge_mem (adj : List (String × List String))
    (dep : ModuleDependency) (x : String) :
    x ∈ (addDepEdge adj dep).map Prod.fst ↔
      x ∈ adj.map Prod.fst ∨
        (extractModulePrefix dep.fromName = x ∧
          extractModulePrefix dep.fromName ≠ extractModulePrefix dep.toName) := by
  unfold addDepEdge
  split
  · next hne =>
    rw [keys_addEdge]
    constructor
    · rintro (rfl | h)
      · exact Or.inr ⟨rfl, hne⟩
      · exact Or.inl h
    · rintro (h | ⟨rfl, _⟩)
      · exact Or.inr h
      · exact Or.inl rfl
  · next hne =>
    constructor
    · exact fun h => Or.inl h
    · rintro (h | ⟨_, hc⟩)
      · exact h
      · exact absurd hc hne

theorem keys_addDepEdge_nodup {adj : List (String × List String)}
    (dep : ModuleDependency) (h : (adj.map Prod.fst).Nodup) :
    ((addDepEdge adj dep).map Prod.fst).Nodup := by
  unfold addDepEdge
  split
  · exact keys_addEdge_nodup h
  · exact h

theorem keys_foldl_addDepEdge (deps : List ModuleDependency)
    (adj : List (String × List String)) (x : String) :
    (x ∈ (deps.foldl addDepEdge adj).map Prod.fst ↔
      x ∈ adj.map Prod.fst ∨
        ∃ dep ∈ deps, extractModulePrefix dep.fromName = x ∧
          extractModulePrefix dep.fromName ≠ extractModulePrefix dep.toName) ∧
    ((adj.map Prod.fst).Nodup → ((deps.foldl addDepEdge adj).map Prod.fst).Nodup) := by
  induction deps generalizing adj with
  | nil => simp
  | cons d rest ih =>
    simp only [List.foldl_cons]
    constructor
    · rw [(ih (addDepEdge adj d)).1, keys_addDepEdge_mem]
      constructor
      · rintro ((h | h) | ⟨dep, hdep, h⟩)
        · exact Or.inl h
        · exact Or.inr ⟨d, List.mem_cons_self d rest, h⟩
        · exact Or.inr ⟨dep, List.mem_cons_of_mem _ hdep, h⟩
      · rintro (h | ⟨dep, hdep, h⟩)
        · exact Or.inl (Or.inl h)
        · rcases List.mem_cons.mp hdep with rfl | hdep
          · exact Or.inl (Or.inr h)
          · exact Or.inr ⟨dep, hdep, h⟩
    · intro h
      exact (ih (addDepEdge adj d)).2 (keys_addDepEdge_nodup d h)

theorem keys_buildAdj_layer (mods : List ModuleInfo)
    (adj : List (String × List String)) (x : String) :
    (x ∈ (mods.foldl (fun adj mo => mo.dependencies.foldl addDepEdge adj) adj).map Prod.fst ↔
      x ∈ adj.map Prod.fst ∨
        ∃ mo ∈ mods, ∃ dep ∈ mo.dependencies,
          extractModulePrefix dep.fromName = x ∧
          extractModulePrefix dep.fromName ≠ extractModulePrefix dep.toName) ∧
    ((adj.map Prod.fst).Nodup →
      ((mods.foldl (fun adj mo => mo.dependencies.foldl addDepEdge adj) adj).map Prod.fst).Nodup) := by
  induction mods generalizing adj with
  | nil => simp
  | cons mo rest ih =>
    simp only [List.foldl_cons]
    constructor
    · rw [(ih (mo.dependencies.foldl addDepEdge adj)).1,
        (keys_foldl_addDepEdge mo.dependencies adj x).1]
      constructor
      · rintro ((h | ⟨dep, hdep, h⟩) | ⟨m, hm, hin⟩)
        · exact Or.inl h
        · exact Or.inr ⟨mo, List.mem_cons_self mo rest, dep, hdep, h⟩
        · exact Or.inr ⟨m, List.mem_cons_of_mem _ hm, hin⟩
      · rintro (h | ⟨m, hm, dep, hdep, h⟩)
        · exact Or.inl (Or.inl h)
        · rcases List.mem_cons.mp hm with rfl | hm
          · exact Or.inl (Or.inr ⟨dep, hdep, h⟩)
          · exact Or.inr ⟨m, hm, dep, hdep, h⟩
    · intro h
      exact (ih _).2 ((keys_foldl_addDepEdge mo.dependencies adj x).2 h)

/-- A module list for which the `prefixCount` summary field and the number
of distinct module prefixes disagree: one module in directory `a` with no
dependencies. -/
def c6mods : List ModuleInfo :=
  [{ path := "a/x.ts", name := "a/x", modPrefix := "a", dependencies := [] }]

/-- Claim C6 (corrected), counterexample: the `prefixCount` summary field
counts the keys of `prefixDependencies`, which only contains prefixes with
at least one outgoing cross-prefix edge; a dependency-free module
contributes a distinct prefix but no key, so the counts differ (0 ≠ 1). -/
theorem summaryPrefixCount_counterexample :
    summaryPrefixCount (buildGraph c6mods) = 0 ∧
    ((c6mods.map (fun mo => extractModulePrefix mo.name)).dedup).length = 1 ∧
    summaryPrefixCount (buildGraph c6mods) ≠
      ((c6mods.map (fun mo => extractModulePrefix mo.name)).dedup).length := by
  refine ⟨by decide, by decide, by decide⟩

/-- Claim C6 (corrected), amended statement: the `prefixCount` summary
field equals the number of distinct prefixes that occur as the source
prefix of at least one cross-prefix dependency edge of some module — the
keys of the built adjacency are duplicate-free and are exactly those
prefixes (the count of distinct module prefixes can be larger, as modules
without cross-prefix dependencies contribute no key). -/
theorem summaryPrefixCount_amended (mods : List ModuleInfo) :
    summaryPrefixCount (buildGraph mods) = (keys (buildGraph mods)).length ∧
    (keys (buildGraph mods)).Nodup ∧
    ∀ x, x ∈ keys (buildGraph mods) ↔
      ∃ mo ∈ mods, ∃ dep ∈ mo.dependencies,
        extractModulePrefix dep.fromName = x ∧
        extractModulePrefix dep.fromName ≠ extractModulePrefix dep.toName := by
  refine ⟨by simp [summaryPrefixCount, keys], ?_, ?_⟩
  · have h := (keys_buildAdj_layer mods [] "").2
    simpa [keys, buildGraph, buildAdj] using h (by simp)
  · intro x
    have h := (keys_buildAdj_layer mods [] x).1
    simpa [keys, buildGraph, buildAdj] using h

/-! ## Claim C5: ordering of `detectViolations` -/

/-- Modelled from the claim's words: the violation list "ordered by Module
iteration order first, then by the order dependency edges appear within
each Module" — the flat module-order dependency list filtered to the
cycle-participating cross-prefix edges. -/
def specOrderedViolations (g : DependencyGraph) : List ModuleDependency :=
  g.modules.foldr (fun p acc =>
    p.2.dependencies.filter (fun dep =>
      decide (∃ comp ∈ findStronglyConnectedComponents g, 1 < comp.length ∧
        extractModulePrefix p.2.name ∈ comp ∧
        extractModulePrefix dep.toName ∈ comp ∧
        extractModulePrefix p.2.name ≠ extractModulePrefix dep.toName)) ++ acc) []

/-- Each module's dependencies tagged with the module's prefix, in Module
iteration order then source order. -/
def modulePrefixedDeps (g : DependencyGraph) : List (String × ModuleDependency) :=
  g.modules.foldr (fun p acc =>
    p.2.dependencies.map (fun dep => (extractModulePrefix p.2.name, dep)) ++ acc) []

/-- Two disjoint two-directory cycles, with the modules of the second
cycle listed before the modules of the first. -/
def c5mods : List ModuleInfo :=
  [{ path := "c/x.ts", name := "c/x", modPrefix := "c",
     dependencies := [{ fromName := "c/x", toName := "d/y", importType := .Import, line := 1 }] },
   { path := "d/y.ts", name := "d/y", modPrefix := "d",
     dependencies := [{ fromName := "d/y", toName := "c/x", importType := .Import, line := 2 }] },
   { path := "a/x.ts", name := "a/x", modPrefix := "a",
     dependencies := [{ fromName := "a/x", toName := "b/y", importType := .Import, line := 3 }] },
   { path := "b/y.ts", name := "b/y", modPrefix := "b",
     dependencies := [{ fromName := "b/y", toName := "a/x", importType := .Import, line := 4 }] }]

/-- Claim C5 (corrected), counterexample: with two non-trivial SCCs the
violations come out grouped by component (the `{a, b}` component's edges
first), not in Module iteration order (modules `c/x`, `d/y` come first). -/
theorem detectViolations_order_counterexample :
    detectViolations (buildGraph c5mods) =
      [{ fromName := "a/x", toName := "b/y", importType := .Import, line := 3 },
       { fromName := "b/y", toName := "a/x", importType := .Import, line := 4 },
       { fromName := "c/x", toName := "d/y", importType := .Import, line := 1 },
       { fromName := "d/y", toName := "c/x", importType := .Import, line := 2 }] ∧
    specOrderedViolations (buildGraph c5mods) =
      [{ fromName := "c/x", toName := "d/y", importType := .Import, line := 1 },
       { fromName := "d/y", toName := "c/x", importType := .Import, line := 2 },
       { fromName := "a/x", toName := "b/y", importType := .Import, line := 3 },
       { fromName := "b/y", toName := "a/x", importType := .Import, line := 4 }] ∧
    detectViolations (buildGraph c5mods) ≠ specOrderedViolations (buildGraph c5mods) := by
  refine ⟨by decide, by decide, by decide⟩

theorem innerViolations_eq (g : DependencyGraph) (comp : List String) :
    g.modules.foldr (fun p acc' =>
      (if extractModulePrefix p.2.name ∈ comp then
        p.2.dependencies.filter (fun dep =>
          decide (extractModulePrefix dep.toName ∈ comp ∧
            extractModulePrefix p.2.name ≠ extractModulePrefix dep.toName))
      else []) ++ acc') [] =
    ((modulePrefixedDeps g).filter (fun pd =>
      decide (pd.1 ∈ comp ∧ extractModulePrefix pd.2.toName ∈ comp ∧
        pd.1 ≠ extractModulePrefix pd.2.toName))).map Prod.snd := by
  unfold modulePrefixedDeps
  induction g.modules with
  | nil => rfl
  | cons p rest ih =>
    simp only [List.foldr_cons, List.filter_append, List.map_append]
    rw [← ih]
    congr 1
    rw [List.filter_map]
    by_cases hm : extractModulePrefix p.2.name ∈ comp
    · rw [if_pos hm]
      rw [List.map_map]
      have hfc : ∀ dep ∈ p.2.dependencies,
          ((fun pd => decide (pd.1 ∈ comp ∧ extractModulePrefix pd.2.toName ∈ comp ∧
            pd.1 ≠ extractModulePrefix pd.2.toName)) ∘
            (fun dep => (extractModulePrefix p.2.name, dep))) dep =
          decide (extractModulePrefix dep.toName ∈ comp ∧
            extractModulePrefix p.2.name ≠ extractModulePrefix dep.toName) := by
        intro dep _
        simp [hm]
      rw [List.filter_congr hfc]
      simp
    · rw [if_neg hm]
      have hfc : ∀ dep ∈ p.2.dependencies,
          ((fun pd => decide (pd.1 ∈ comp ∧ extractModulePrefix pd.2.toName ∈ comp ∧
            pd.1 ≠ extractModulePrefix pd.2.toName)) ∘
            (fun dep => (extractModulePrefix p.2.name, dep))) dep = false := by
        intro dep _
        simp [hm]
      rw [List.filter_congr hfc]
      simp

/-- Claim C5 (corrected), amended statement: the violations are grouped by
strongly connected component, in the order the SCC computation returns the
components; within each component of size greater than one they are the
cross-prefix edges with both endpoints in the component, in Module
iteration order first and source order within a Module, with no
deduplication (the filter keeps every occurrence, so a duplicate import on
two different lines produces two records). -/
theorem detectViolations_amended (g : DependencyGraph) :
    detectViolations g = (findStronglyConnectedComponents g).foldr (fun comp acc =>
      (if 1 < comp.length then
        ((modulePrefixedDeps g).filter (fun pd =>
          decide (pd.1 ∈ comp ∧ extractModulePrefix pd.2.toName ∈ comp ∧
            pd.1 ≠ extractModulePrefix pd.2.toName))).map Prod.snd
      else []) ++ acc) [] := by
  unfold detectViolations
  induction findStronglyConnectedComponents g with
  | nil => rfl
  | cons comp rest ih =>
    simp only [List.foldr_cons]
    rw [ih]
    congr 1
    by_cases hc : 1 < comp.length
    · rw [if_pos hc, if_pos hc, innerViolations_eq]
    · rw [if_neg hc, if_neg hc]

/-! ## DFS toolkit: visited-set monotonicity and arc shape -/

theorem dfsScan_visited_mono {g : DependencyGraph}
    {rec : String → List String → List String → List String × List FeedbackArc}
    (hrec : ∀ v vis stk, vis ⊆ (rec v vis stk).1) :
    ∀ ns cur vis stk, vis ⊆ (dfsScan g rec ns cur vis stk).1 := by
  intro ns
  induction ns with
  | nil => intro cur vis stk; exact fun x hx => hx
  | cons n rest ih =>
    intro cur vis stk
    simp only [dfsScan]
    by_cases hv : n ∈ vis
    · by_cases hs : n ∈ stk
      · simp only [if_pos hv, if_pos hs]
        exact ih cur vis stk
      · simp only [if_pos hv, if_neg hs]
        exact ih cur vis stk
    · simp only [if_neg hv]
      exact fun x hx => ih cur _ stk (hrec n vis stk hx)

theorem dfsVisit_visited_mono (g : DependencyGraph) :
    ∀ fuel v vis stk, vis ⊆ (dfsVisit g fuel v vis stk).1 := by
  intro fuel
  induction fuel with
  | zero => intro v vis stk; exact fun x hx => hx
  | succ f ih =>
    intro v vis stk
    simp only [dfsVisit]
    exact fun x hx => dfsScan_visited_mono ih _ v _ _ (subset_setAdd hx)

theorem dfsVisit_self_mem (g : DependencyGraph) (f : Nat) (v : String)
    (vis stk : List String) : v ∈ (dfsVisit g (f + 1) v vis stk).1 := by
  simp only [dfsVisit]
  exact dfsScan_visited_mono (dfsVisit_visited_mono g _) _ v _ _ (by simp)

theorem dfsScan_arcs_shape {g : DependencyGraph}
    {rec : String → List String → List String → List String × List FeedbackArc}
    (hrec : ∀ v vis stk arc, arc ∈ (rec v vis stk).2 →
      arc.toName ∈ adjOf g arc.fromName ∧
      arc.violations = findViolations arc.fromName arc.toName g) :
    ∀ ns cur vis stk, (∀ n, n ∈ ns → n ∈ adjOf g cur) →
      ∀ arc ∈ (dfsScan g rec ns cur vis stk).2,
        arc.toName ∈ adjOf g arc.fromName ∧
        arc.violations = findViolations arc.fromName arc.toName g := by
  intro ns
  induction ns with
  | nil => intro cur vis stk _ arc harc; simp [dfsScan] at harc
  | cons n rest ih =>
    intro cur vis stk hns arc harc
    simp only [dfsScan] at harc
    by_cases hv : n ∈ vis
    · by_cases hs : n ∈ stk
      · simp only [if_pos hv, if_pos hs, List.mem_cons] at harc
        rcases harc with rfl | harc
        · exact ⟨hns n (by simp), rfl⟩
        · exact ih cur vis stk (fun m hm => hns m (by simp [hm])) arc harc
      · simp only [if_pos hv, if_neg hs] at harc
        exact ih cur vis stk (fun m hm => hns m (by simp [hm])) arc harc
    · simp only [if_neg hv, List.mem_append] at harc
      rcases harc with harc | harc
      · exact hrec n vis stk arc harc
      · exact ih cur _ stk (fun m hm => hns m (by simp [hm])) arc harc

theorem dfsVisit_arcs_shape (g : DependencyGraph) :
    ∀ fuel v vis stk arc, arc ∈ (dfsVisit g fuel v vis stk).2 →
      arc.toName ∈ adjOf g arc.fromName ∧
      arc.violations = findViolations arc.fromName arc.toName g := by
  intro fuel
  induction fuel with
  | zero => intro v vis stk arc harc; simp [dfsVisit] at harc
  | succ f ih =>
    intro v vis stk arc harc
    simp only [dfsVisit] at harc
    exact dfsScan_arcs_shape ih _ v _ _ (fun n hn => hn) arc harc

theorem findFeedbackArcs_arcs_shape (g : DependencyGraph) :
    ∀ arc ∈ findFeedbackArcs g,
      arc.toName ∈ adjOf g arc.fromName ∧
      arc.violations = findViolations arc.fromName arc.toName g := by
  unfold findFeedbackArcs
  have main : ∀ ks vis arc, arc ∈ feedbackLoop g ks vis →
      arc.toName ∈ adjOf g arc.fromName ∧
      arc.violations = findViolations arc.fromName arc.toName g := by
    intro ks
    induction ks with
    | nil => intro vis arc harc; simp [feedbackLoop] at harc
    | cons p rest ih =>
      intro vis arc harc
      simp only [feedbackLoop] at harc
      by_cases hv : p ∈ vis
      · exact ih vis arc (by simpa [if_pos hv] using harc)
      · simp only [if_neg hv, List.mem_append] at harc
        rcases harc with harc | harc
        · exact dfsVisit_arcs_shape g _ p vis [] arc harc
        · exact ih _ arc harc
  exact main (keys g) []

/-! ## Claim C9: feedback arcs carry non-empty violation lists -/

theorem mem_findViolations (a b : String) (g : DependencyGraph)
    (x : ModuleDependency) :
    x ∈ findViolations a b g ↔
      ∃ p ∈ g.modules, extractModulePrefix p.2.name = a ∧
        x ∈ p.2.dependencies ∧ extractModulePrefix x.toName = b := by
  unfold findViolations
  induction g.modules with
  | nil => simp
  | cons p rest ih =>
    simp only [List.foldr_cons, List.mem_append, ih, List.mem_cons]
    by_cases hp : extractModulePrefix p.2.name = a
    · rw [if_pos hp]
      simp only [List.mem_filter, decide_eq_true_eq]
      constructor
      · rintro (⟨hx, hb⟩ | ⟨q, hq, hqa, hx, hb⟩)
        · exact ⟨p, Or.inl rfl, hp, hx, hb⟩
        · exact ⟨q, Or.inr hq, hqa, hx, hb⟩
      · rintro ⟨q, hq | hq, hqa, hx, hb⟩
        · subst hq
          exact Or.inl ⟨hx, hb⟩
        · exact Or.inr ⟨q, hq, hqa, hx, hb⟩
    · rw [if_neg hp]
      simp only [List.not_mem_nil, false_or]
      constructor
      · rintro ⟨q, hq, hqa, hx, hb⟩
        exact ⟨q, Or.inr hq, hqa, hx, hb⟩
      · rintro ⟨q, hq | hq, hqa, hx, hb⟩
        · subst hq
          exact absurd hqa hp
        · exact ⟨q, hq, hqa, hx, hb⟩

theorem mem_adjOfA_entry {l : List (String × List String)} {a b : String}
    (h : b ∈ adjOfA l a) : ∃ p ∈ l, p.1 = a ∧ b ∈ p.2 := by
  induction l with
  | nil => simp [adjOfA] at h
  | cons q rest ih =>
    obtain ⟨k, s⟩ := q
    by_cases hk : k = a
    · rw [adjOfA, if_pos hk] at h
      exact ⟨(k, s), by simp, hk, h⟩
    · rw [adjOfA, if_neg hk] at h
      obtain ⟨p, hp, hpa, hpb⟩ := ih h
      exact ⟨p, List.mem_cons_of_mem _ hp, hpa, hpb⟩

/-- The spec's Scenario B: `ui/x` imports `core/y` (line 3) and `core/y`
imports `ui/x` (line 7). -/
def scenarioB : List ModuleInfo :=
  [{ path := "ui/x.ts", name := "ui/x", modPrefix := "ui",
     dependencies := [{ fromName := "ui/x", toName := "core/y", importType := .Import, line := 3 }] },
   { path := "core/y.ts", name := "core/y", modPrefix := "core",
     dependencies := [{ fromName := "core/y", toName := "ui/x", importType := .Import, line := 7 }] }]

/-- A graph whose adjacency contains a two-cycle but whose module map is
empty: the claim's two preconditions hold vacuously, yet the recorded
feedback arc has no attributable violations. -/
def c9graph : DependencyGraph :=
  { modules := [], prefixDependencies := [("a", ["b"]), ("b", ["a"])] }

/-- Claim C9 (corrected), counterexample: the stated preconditions only
constrain the module map, not the adjacency, so an adjacency edge with no
underlying module dependency yields a feedback arc whose violations list
is empty. -/
theorem feedbackArc_violations_counterexample :
    (∀ p ∈ c9graph.modules, ∀ dep ∈ p.2.dependencies, dep.fromName = p.2.name) ∧
    (∀ p ∈ c9graph.modules, p.1 = p.2.name) ∧
    findFeedbackArcs c9graph =
      [{ fromName := "b", toName := "a", violations := [] }] ∧
    ∃ arc ∈ findFeedbackArcs c9graph, arc.violations = [] := by
  refine ⟨by decide, by decide, by decide, ?_⟩
  refine ⟨{ fromName := "b", toName := "a", violations := [] }, by decide, rfl⟩

/-- Claim C9 (corrected), amended statement: with the additional
precondition that every adjacency edge is witnessed by a registered
module's dependency with matching endpoint prefixes, every feedback arc
returned by `findFeedbackArcs` has a non-empty violations list. -/
theorem feedbackArc_violations_nonempty (g : DependencyGraph)
    (hown : ∀ p ∈ g.modules, ∀ dep ∈ p.2.dependencies, dep.fromName = p.2.name)
    (hreg : ∀ p ∈ g.modules, p.1 = p.2.name)
    (hwit : ∀ e ∈ g.prefixDependencies, ∀ b ∈ e.2,
      ∃ p ∈ g.modules, ∃ dep ∈ p.2.dependencies,
        extractModulePrefix dep.fromName = e.1 ∧ extractModulePrefix dep.toName = b) :
    ∀ arc ∈ findFeedbackArcs g, arc.violations ≠ [] := by
  intro arc harc
  obtain ⟨hedge, hviol⟩ := findFeedbackArcs_arcs_shape g arc harc
  obtain ⟨e, he, hea, heb⟩ := mem_adjOfA_entry hedge
  obtain ⟨p, hp, dep, hdep, hfa, htb⟩ := hwit e he arc.toName heb
  have hname : dep.fromName = p.2.name := hown p hp dep hdep
  have hmem : dep ∈ findViolations arc.fromName arc.toName g := by
    rw [mem_findViolations]
    refine ⟨p, hp, ?_, hdep, htb⟩
    rw [← hname, hfa, hea]
  rw [hviol]
  intro hempty
  rw [hempty] at hmem
  exact List.not_mem_nil dep hmem

/-- Witness for the amended C9 at the two-directory-cycle scenario. -/
theorem feedbackArc_violations_nonempty_witness :
    ({ fromName := "core", toName := "ui",
       violations := [{ fromName := "core/y", toName := "ui/x",
                        importType := .Import, line := 7 }] } : FeedbackArc).violations ≠ [] :=
  feedbackArc_violations_nonempty (buildGraph scenarioB)
    (by decide) (by decide) (by decide) _ (by decide)

/-! ## Claim C10: distinct endpoint pairs, and arcs are graph edges -/

theorem adjOfA_nodup {l : List (String × List String)}
    (h : ∀ p ∈ l, List.Nodup p.2) (v : String) : (adjOfA l v).Nodup := by
  induction l with
  | nil => simp [adjOfA]
  | cons q rest ih =>
    obtain ⟨k, s⟩ := q
    by_cases hk : k = v
    · rw [adjOfA, if_pos hk]
      exact h (k, s) (by simp)
    · rw [adjOfA, if_neg hk]
      exact ih (fun p hp => h p (List.mem_cons_of_mem _ hp))

theorem mem_arcPairs {x : String × String} {l : List FeedbackArc} :
    x ∈ arcPairs l ↔ ∃ arc ∈ l, arc.fromName = x.1 ∧ arc.toName = x.2 := by
  unfold arcPairs
  rw [List.mem_map]
  constructor
  · rintro ⟨arc, harc, rfl⟩
    exact ⟨arc, harc, rfl, rfl⟩
  · rintro ⟨arc, harc, h1, h2⟩
    exact ⟨arc, harc, by rw [h1, h2]⟩

theorem arcPairs_append (l₁ l₂ : List FeedbackArc) :
    arcPairs (l₁ ++ l₂) = arcPairs l₁ ++ arcPairs l₂ := by
  unfold arcPairs
  exact List.map_append _ _ _

theorem dfsScan_arcs_nodup {g : DependencyGraph}
    {rec : String → List String → List String → List String × List FeedbackArc}
    (hmono : ∀ v vis stk, vis ⊆ (rec v vis stk).1)
    (hsrc : ∀ v vis stk, v ∉ vis → ∀ arc ∈ (rec v vis stk).2,
      arc.fromName ∈ (rec v vis stk).1 ∧ arc.fromName ∉ vis)
    (hnodup : ∀ v vis stk, v ∉ vis → (arcPairs (rec v vis stk).2).Nodup) :
    ∀ ns cur vis stk, ns.Nodup → cur ∈ vis →
      (arcPairs (dfsScan g rec ns cur vis stk).2).Nodup ∧
      (∀ arc ∈ (dfsScan g rec ns cur vis stk).2,
        (arc.fromName = cur ∧ arc.toName ∈ ns) ∨
        (arc.fromName ≠ cur ∧ arc.fromName ∈ (dfsScan g rec ns cur vis stk).1 ∧
          arc.fromName ∉ vis)) := by
  intro ns
  induction ns with
  | nil =>
    intro cur vis stk _ _
    exact ⟨by simp [dfsScan, arcPairs], by simp [dfsScan]⟩
  | cons n rest ih =>
    intro cur vis stk hnd hcur
    have hndr : rest.Nodup := (List.nodup_cons.mp hnd).2
    have hnr : n ∉ rest := (List.nodup_cons.mp hnd).1
    by_cases hv : n ∈ vis
    · by_cases hs : n ∈ stk
      · have heq : dfsScan g rec (n :: rest) cur vis stk =
            ((dfsScan g rec rest cur vis stk).1,
             { fromName := cur, toName := n,
               violations := findViolations cur n g } ::
               (dfsScan g rec rest cur vis stk).2) := by
          simp [dfsScan, if_pos hv, if_pos hs]
        obtain ⟨ihn, ihs⟩ := ih cur vis stk hndr hcur
        rw [heq]
        constructor
        · have : arcPairs ({ fromName := cur, toName := n,
                             violations := findViolations cur n g } ::
              (dfsScan g rec rest cur vis stk).2) =
            (cur, n) :: arcPairs (dfsScan g rec rest cur vis stk).2 := rfl
          rw [this, List.nodup_cons]
          refine ⟨fun hmem => ?_, ihn⟩
          obtain ⟨arc, harc, h1, h2⟩ := mem_arcPairs.mp hmem
          have h1' : arc.fromName = cur := h1
          have h2' : arc.toName = n := h2
          rcases ihs arc harc with ⟨_, hto⟩ | ⟨hne, _, _⟩
          · exact hnr (h2' ▸ hto)
          · exact hne h1'
        · intro arc harc
          rcases List.mem_cons.mp harc with rfl | harc
          · exact Or.inl ⟨rfl, by simp⟩
          · rcases ihs arc harc with ⟨h1, h2⟩ | ⟨h1, h2, h3⟩
            · exact Or.inl ⟨h1, List.mem_cons_of_mem _ h2⟩
            · exact Or.inr ⟨h1, h2, h3⟩
      · have heq : dfsScan g rec (n :: rest) cur vis stk =
            dfsScan g rec rest cur vis stk := by
          simp [dfsScan, if_pos hv, if_neg hs]
        obtain ⟨ihn, ihs⟩ := ih cur vis stk hndr hcur
        rw [heq]
        refine ⟨ihn, fun arc harc => ?_⟩
        rcases ihs arc harc with ⟨h1, h2⟩ | h
        · exact Or.inl ⟨h1, List.mem_cons_of_mem _ h2⟩
        · exact Or.inr h
    · have heq : dfsScan g rec (n :: rest) cur vis stk =
          ((dfsScan g rec rest cur (rec n vis stk).1 stk).1,
           (rec n vis stk).2 ++ (dfsScan g rec rest cur (rec n vis stk).1 stk).2) := by
        simp [dfsScan, if_neg hv]
      have hcur1 : cur ∈ (rec n vis stk).1 := hmono n vis stk hcur
      obtain ⟨ihn, ihs⟩ := ih cur (rec n vis stk).1 stk hndr hcur1
      have hsub : (rec n vis stk).1 ⊆ (dfsScan g rec rest cur (rec n vis stk).1 stk).1 :=
        dfsScan_visited_mono hmono rest cur _ stk
      rw [heq]
      constructor
      · rw [arcPairs_append, List.nodup_append]
        refine ⟨hnodup n vis stk hv, ihn, fun x hx1 hx2 => ?_⟩
        obtain ⟨arc1, harc1, ha1, ha2⟩ := mem_arcPairs.mp hx1
        obtain ⟨arc2, harc2, hb1, hb2⟩ := mem_arcPairs.mp hx2
        obtain ⟨hin1, hnotin1⟩ := hsrc n vis stk hv arc1 harc1
        rcases ihs arc2 harc2 with ⟨hc, _⟩ | ⟨_, _, hni⟩
        · exact hnotin1 (by rw [ha1, ← hb1, hc]; exact hcur)
        · exact hni (by rw [hb1, ← ha1]; exact hin1)
      · intro arc harc
        rcases List.mem_append.mp harc with harc | harc
        · obtain ⟨hin, hnotin⟩ := hsrc n vis stk hv arc harc
          refine Or.inr ⟨fun he => hnotin (he ▸ hcur), hsub hin, hnotin⟩
        · rcases ihs arc harc with ⟨h1, h2⟩ | ⟨h1, h2, h3⟩
          · exact Or.inl ⟨h1, List.mem_cons_of_mem _ h2⟩
          · exact Or.inr ⟨h1, h2, fun hmem => h3 (hmono n vis stk hmem)⟩

theorem dfsVisit_arcs_nodup (g : DependencyGraph)
    (hwfv : ∀ p ∈ g.prefixDependencies, List.Nodup p.2) :
    ∀ fuel v vis stk, v ∉ vis →
      (arcPairs (dfsVisit g fuel v vis stk).2).Nodup ∧
      ∀ arc ∈ (dfsVisit g fuel v vis stk).2,
        arc.fromName ∈ (dfsVisit g fuel v vis stk).1 ∧ arc.fromName ∉ vis := by
  intro fuel
  induction fuel with
  | zero =>
    intro v vis stk _
    exact ⟨by simp [dfsVisit, arcPairs], by simp [dfsVisit]⟩
  | succ f ih =>
    intro v vis stk hv
    have hscan := dfsScan_arcs_nodup (g := g)
      (fun v vis stk => dfsVisit_visited_mono g f v vis stk)
      (fun v vis stk hv => (ih v vis stk hv).2)
      (fun v vis stk hv => (ih v vis stk hv).1)
      (adjOf g v) v (setAdd v vis) (v :: stk)
      (adjOfA_nodup hwfv v) (by simp)
    have heq : dfsVisit g (f + 1) v vis stk =
        dfsScan g (dfsVisit g f) (adjOf g v) v (setAdd v vis) (v :: stk) := rfl
    rw [heq]
    refine ⟨hscan.1, fun arc harc => ?_⟩
    rcases hscan.2 arc harc with ⟨h1, _⟩ | ⟨_, h2, h3⟩
    · constructor
      · rw [h1]
        exact dfsScan_visited_mono (fun v vis stk => dfsVisit_visited_mono g f v vis stk)
          _ v _ _ (by simp)
      · rw [h1]; exact hv
    · exact ⟨h2, fun hmem => h3 (subset_setAdd hmem)⟩

theorem feedbackLoop_arcs_nodup (g : DependencyGraph)
    (hwfv : ∀ p ∈ g.prefixDependencies, List.Nodup p.2) :
    ∀ ks vis,
      (arcPairs (feedbackLoop g ks vis)).Nodup ∧
      ∀ arc ∈ feedbackLoop g ks vis, arc.fromName ∉ vis := by
  intro ks
  induction ks with
  | nil => intro vis; exact ⟨by simp [feedbackLoop, arcPairs], by simp [feedbackLoop]⟩
  | cons p rest ih =>
    intro vis
    by_cases hv : p ∈ vis
    · have heq : feedbackLoop g (p :: rest) vis = feedbackLoop g rest vis := by
        simp [feedbackLoop, if_pos hv]
      rw [heq]
      exact ih vis
    · have heq : feedbackLoop g (p :: rest) vis =
          (dfsVisit g (fuelOf g) p vis []).2 ++
            feedbackLoop g rest (dfsVisit g (fuelOf g) p vis []).1 := by
        simp [feedbackLoop, if_neg hv]
      rw [heq]
      obtain ⟨hn1, hs1⟩ := dfsVisit_arcs_nodup g hwfv (fuelOf g) p vis [] hv
      obtain ⟨hn2, hs2⟩ := ih (dfsVisit g (fuelOf g) p vis []).1
      constructor
      · rw [arcPairs_append, List.nodup_append]
        refine ⟨hn1, hn2, fun x hx1 hx2 => ?_⟩
        obtain ⟨arc1, harc1, ha1, _⟩ := mem_arcPairs.mp hx1
        obtain ⟨arc2, harc2, hb1, _⟩ := mem_arcPairs.mp hx2
        exact hs2 arc2 harc2 (by rw [hb1, ← ha1]; exact (hs1 arc1 harc1).1)
      · intro arc harc
        rcases List.mem_append.mp harc with harc | harc
        · exact (hs1 arc harc).2
        · exact fun hmem =>
            hs2 arc harc (dfsVisit_visited_mono g (fuelOf g) p vis [] hmem)

/-- Claim C10 (confirmed). For every dependency graph (well-formed in the
sense guaranteed by the TypeScript `Map`/`Set` types), the feedback arcs
have pairwise distinct (from, to) endpoint pairs, and every returned pair
is an actual edge of the graph: `to` is a member of the adjacency set of
`from`. -/
theorem findFeedbackArcs_distinct_edges (g : DependencyGraph) (hwf : WellFormed g) :
    (arcPairs (findFeedbackArcs g)).Nodup ∧
    ∀ arc ∈ findFeedbackArcs g, arc.toName ∈ adjOf g arc.fromName := by
  constructor
  · exact (feedbackLoop_arcs_nodup g hwf.2 (keys g) []).1
  · exact fun arc harc => (findFeedbackArcs_arcs_shape g arc harc).1

/-- Witness for C10 at the two-directory-cycle scenario. -/
theorem findFeedbackArcs_distinct_edges_witness :
    (arcPairs (findFeedbackArcs (buildGraph scenarioB))).Nodup ∧
    "ui" ∈ adjOf (buildGraph scenarioB) "core" := by
  have hwf : WellFormed (buildGraph scenarioB) := ⟨by decide, by decide⟩
  exact ⟨(findFeedbackArcs_distinct_edges _ hwf).1,
    (findFeedbackArcs_distinct_edges _ hwf).2
      { fromName := "core", toName := "ui",
        violations := [{ fromName := "core/y", toName := "ui/x",
                         importType := .Import, line := 7 }] } (by decide)⟩

/-! ## Claim C1: `isAcyclic` agrees with emptiness of `findFeedbackArcs` -/

theorem cycleScan_dfsScan_corr {g : DependencyGraph}
    {recd : String → List String → List String → List String × List FeedbackArc}
    {recc : String → List String → List String → List String × Bool}
    (hrec : ∀ v vis stk,
      ((recd v vis stk).2 = [] → recc v vis stk = ((recd v vis stk).1, false)) ∧
      ((recd v vis stk).2 ≠ [] → (recc v vis stk).2 = true)) :
    ∀ ns cur vis stk,
      ((dfsScan g recd ns cur vis stk).2 = [] →
        cycleScan recc ns vis stk = ((dfsScan g recd ns cur vis stk).1, false)) ∧
      ((dfsScan g recd ns cur vis stk).2 ≠ [] →
        (cycleScan recc ns vis stk).2 = true) := by
  intro ns
  induction ns with
  | nil =>
    intro cur vis stk
    exact ⟨fun _ => rfl, fun h => absurd rfl h⟩
  | cons n rest ih =>
    intro cur vis stk
    by_cases hv : n ∈ vis
    · by_cases hs : n ∈ stk
      · have heqd : (dfsScan g recd (n :: rest) cur vis stk).2 =
            { fromName := cur, toName := n,
              violations := findViolations cur n g } ::
              (dfsScan g recd rest cur vis stk).2 := by
          simp [dfsScan, if_pos hv, if_pos hs]
        have heqc : cycleScan recc (n :: rest) vis stk = (vis, true) := by
          simp [cycleScan, if_pos hv, if_pos hs]
        rw [heqd, heqc]
        exact ⟨fun h => absurd h (by simp), fun _ => rfl⟩
      · have heqd : dfsScan g recd (n :: rest) cur vis stk =
            dfsScan g recd rest cur vis stk := by
          simp [dfsScan, if_pos hv, if_neg hs]
        have heqc : cycleScan recc (n :: rest) vis stk =
            cycleScan recc rest vis stk := by
          simp [cycleScan, if_pos hv, if_neg hs]
        rw [heqd, heqc]
        exact ih cur vis stk
    · have heqd : dfsScan g recd (n :: rest) cur vis stk =
          ((dfsScan g recd rest cur (recd n vis stk).1 stk).1,
           (recd n vis stk).2 ++ (dfsScan g recd rest cur (recd n vis stk).1 stk).2) := by
        simp [dfsScan, if_neg hv]
      by_cases harc : (recd n vis stk).2 = []
      · have hc : recc n vis stk = ((recd n vis stk).1, false) := (hrec n vis stk).1 harc
        have heqc : cycleScan recc (n :: rest) vis stk =
            cycleScan recc rest (recd n vis stk).1 stk := by
          simp [cycleScan, if_neg hv, hc]
        rw [heqd, heqc]
        obtain ⟨ih1, ih2⟩ := ih cur (recd n vis stk).1 stk
        constructor
        · intro h
          simp only [harc, List.nil_append] at h ⊢
          rw [ih1 h]
        · intro h
          simp only [harc, List.nil_append] at h
          exact ih2 h
      · have hc : (recc n vis stk).2 = true := (hrec n vis stk).2 harc
        have heqc : (cycleScan recc (n :: rest) vis stk).2 = true := by
          simp only [cycleScan, if_neg hv]
          rw [if_pos hc]
        rw [heqd]
        constructor
        · intro h
          simp only [List.append_eq_nil] at h
          exact absurd h.1 harc
        · intro _
          exact heqc

theorem hasCycleVisit_dfsVisit_corr (g : DependencyGraph) :
    ∀ fuel v vis stk,
      ((dfsVisit g fuel v vis stk).2 = [] →
        hasCycleVisit g fuel v vis stk = ((dfsVisit g fuel v vis stk).1, false)) ∧
      ((dfsVisit g fuel v vis stk).2 ≠ [] →
        (hasCycleVisit g fuel v vis stk).2 = true) := by
  intro fuel
  induction fuel with
  | zero =>
    intro v vis stk
    exact ⟨fun _ => rfl, fun h => absurd rfl h⟩
  | succ f ih =>
    intro v vis stk
    exact cycleScan_dfsScan_corr ih (adjOf g v) v (setAdd v vis) (v :: stk)

theorem acyclicLoop_feedbackLoop_corr (g : DependencyGraph) :
    ∀ ks vis,
      (feedbackLoop g ks vis = [] → acyclicLoop g ks vis = true) ∧
      (feedbackLoop g ks vis ≠ [] → acyclicLoop g ks vis = false) := by
  intro ks
  induction ks with
  | nil =>
    intro vis
    exact ⟨fun _ => rfl, fun h => absurd rfl h⟩
  | cons p rest ih =>
    intro vis
    by_cases hv : p ∈ vis
    · have heqf : feedbackLoop g (p :: rest) vis = feedbackLoop g rest vis := by
        simp [feedbackLoop, if_pos hv]
      have heqa : acyclicLoop g (p :: rest) vis = acyclicLoop g rest vis := by
        simp [acyclicLoop, if_pos hv]
      rw [heqf, heqa]
      exact ih vis
    · have heqf : feedbackLoop g (p :: rest) vis =
          (dfsVisit g (fuelOf g) p vis []).2 ++
            feedbackLoop g rest (dfsVisit g (fuelOf g) p vis []).1 := by
        simp [feedbackLoop, if_neg hv]
      by_cases harc : (dfsVisit g (fuelOf g) p vis []).2 = []
      · have hc : hasCycleVisit g (fuelOf g) p vis [] =
            ((dfsVisit g (fuelOf g) p vis []).1, false) :=
          (hasCycleVisit_dfsVisit_corr g (fuelOf g) p vis []).1 harc
        have heqa : acyclicLoop g (p :: rest) vis =
            acyclicLoop g rest (dfsVisit g (fuelOf g) p vis []).1 := by
          simp [acyclicLoop, if_neg hv, hc]
        rw [heqf, heqa, harc, List.nil_append]
        exact ih _
      · have hc : (hasCycleVisit g (fuelOf g) p vis []).2 = true :=
          (hasCycleVisit_dfsVisit_corr g (fuelOf g) p vis []).2 harc
        have heqa : acyclicLoop g (p :: rest) vis = false := by
          simp only [acyclicLoop, if_neg hv]
          rw [if_pos hc]
        rw [heqf, heqa]
        constructor
        · intro h
          simp only [List.append_eq_nil] at h
          exact absurd h.1 harc
        · intro _
          rfl

/-- Claim C1 (confirmed). For every dependency graph, `isAcyclic` returns
`true` exactly when `findFeedbackArcs` returns the empty list. -/
theorem isAcyclic_eq_isEmpty_findFeedbackArcs (g : DependencyGraph) :
    isAcyclic g = (findFeedbackArcs g).isEmpty := by
  unfold isAcyclic findFeedbackArcs
  by_cases h : feedbackLoop g (keys g) [] = []
  · rw [h, (acyclicLoop_feedbackLoop_corr g (keys g) []).1 h]
    rfl
  · rw [(acyclicLoop_feedbackLoop_corr g (keys g) []).2 h]
    cases hl : feedbackLoop g (keys g) [] with
    | nil => exact absurd hl h
    | cons a l => rfl

/-! ## Claim C3: fuel-sufficiency counters and first-pass completeness -/

/-- The number of distinct adjacency keys not yet visited; the DFS fuel
invariant keeps the fuel strictly above this count. -/
def unvisitedKeys (g : DependencyGraph) (vis : List String) : Nat :=
  (((keys g).dedup).filter (fun k => decide (k ∉ vis))).length

theorem length_filter_mono {l : List String} {p q : String → Bool}
    (h : ∀ x ∈ l, p x = true → q x = true) :
    (l.filter p).length ≤ (l.filter q).length := by
  induction l with
  | nil => simp
  | cons x rest ih =>
    have ih' := ih (fun y hy => h y (List.mem_cons_of_mem _ hy))
    by_cases hp : p x = true
    · rw [List.filter_cons_of_pos hp, List.filter_cons_of_pos (h x (by simp) hp)]
      simp only [List.length_cons]
      omega
    · rw [List.filter_cons_of_neg hp]
      by_cases hq : q x = true
      · rw [List.filter_cons_of_pos hq]
        simp only [List.length_cons]
        omega
      · rw [List.filter_cons_of_neg hq]
        exact ih'

theorem length_filter_lt {l : List String} {p q : String → Bool}
    (h : ∀ x ∈ l, p x = true → q x = true) (v : String) (hv : v ∈ l)
    (hq : q v = true) (hp : p v = false) :
    (l.filter p).length < (l.filter q).length := by
  induction l with
  | nil => simp at hv
  | cons x rest ih =>
    rcases List.mem_cons.mp hv with rfl | hv
    · rw [List.filter_cons_of_neg (by simp [hp]), List.filter_cons_of_pos hq]
      simp only [List.length_cons]
      have := length_filter_mono (fun y hy => h y (List.mem_cons_of_mem _ hy))
      omega
    · have ih' := ih (fun y hy => h y (List.mem_cons_of_mem _ hy)) hv
      by_cases hpx : p x = true
      · rw [List.filter_cons_of_pos hpx, List.filter_cons_of_pos (h x (by simp) hpx)]
        simp only [List.length_cons]
        omega
      · rw [List.filter_cons_of_neg hpx]
        by_cases hqx : q x = true
        · rw [List.filter_cons_of_pos hqx]
          simp only [List.length_cons]
          omega
        · rw [List.filter_cons_of_neg hqx]
          exact ih'

theorem unvisitedKeys_mono {g : DependencyGraph} {vis vis' : List String}
    (h : vis ⊆ vis') : unvisitedKeys g vis' ≤ unvisitedKeys g vis := by
  apply length_filter_mono
  intro x _ hx
  simp only [decide_eq_true_eq] at hx ⊢
  exact fun hmem => hx (h hmem)

theorem unvisitedKeys_setAdd_lt {g : DependencyGraph} {v : String}
    {vis : List String} (hk : v ∈ keys g) (hv : v ∉ vis) :
    unvisitedKeys g (setAdd v vis) < unvisitedKeys g vis := by
  apply length_filter_lt (v := v)
  · intro x _ hx
    simp only [decide_eq_true_eq] at hx ⊢
    exact fun hmem => hx (subset_setAdd hmem)
  · exact List.mem_dedup.mpr hk
  · simp only [decide_eq_true_eq]
    exact hv
  · simp only [decide_eq_false_iff_not, not_not]
    simp

theorem unvisitedKeys_lt_fuelOf (g : DependencyGraph) (vis : List String) :
    unvisitedKeys g vis < fuelOf g := by
  unfold unvisitedKeys fuelOf
  have h1 : (((keys g).dedup).filter (fun k => decide (k ∉ vis))).length ≤
      ((keys g).dedup).length := List.length_filter_le _ _
  have h2 : ((keys g).dedup).length ≤ (keys g).length :=
    (List.dedup_sublist (keys g)).length_le
  have h3 : (keys g).length = g.prefixDependencies.length := List.length_map _ _
  omega

theorem adjOfA_eq_nil {l : List (String × List String)} {v : String}
    (h : ∀ p ∈ l, p.1 ≠ v) : adjOfA l v = [] := by
  induction l with
  | nil => rfl
  | cons p rest ih =>
    obtain ⟨k, s⟩ := p
    rw [adjOfA, if_neg (h (k, s) (by simp))]
    exact ih (fun q hq => h q (List.mem_cons_of_mem _ hq))

theorem adjOf_eq_nil_of_not_key {g : DependencyGraph} {v : String}
    (h : v ∉ keys g) : adjOf g v = [] := by
  apply adjOfA_eq_nil
  intro p hp he
  exact h (by simpa [keys, he] using List.mem_map_of_mem Prod.fst hp)

theorem key_of_mem_adjOf {g : DependencyGraph} {v x : String}
    (h : x ∈ adjOf g v) : v ∈ keys g := by
  by_contra hv
  rw [adjOf_eq_nil_of_not_key hv] at h
  exact List.not_mem_nil x h

theorem scanUnvisited_vis_mono
    {rec : String → List String → List String → List String × List String}
    (hrec : ∀ v vis acc, vis ⊆ (rec v vis acc).1) :
    ∀ ns vis acc, vis ⊆ (scanUnvisited rec ns vis acc).1 := by
  intro ns
  induction ns with
  | nil => intro vis acc; exact fun x hx => hx
  | cons n rest ih =>
    intro vis acc
    by_cases hv : n ∈ vis
    · rw [scanUnvisited, if_pos hv]
      exact ih vis acc
    · rw [scanUnvisited, if_neg hv]
      exact fun x hx => ih _ _ (hrec n vis acc hx)

theorem scanUnvisited_acc_mono
    {rec : String → List String → List String → List String × List String}
    (hrec : ∀ v vis acc, acc ⊆ (rec v vis acc).2) :
    ∀ ns vis acc, acc ⊆ (scanUnvisited rec ns vis acc).2 := by
  intro ns
  induction ns with
  | nil => intro vis acc; exact fun x hx => hx
  | cons n rest ih =>
    intro vis acc
    by_cases hv : n ∈ vis
    · rw [scanUnvisited, if_pos hv]
      exact ih vis acc
    · rw [scanUnvisited, if_neg hv]
      exact fun x hx => ih _ _ (hrec n vis acc hx)

theorem fillOrder_vis_mono (g : DependencyGraph) :
    ∀ fuel v vis stk, vis ⊆ (fillOrder g fuel v vis stk).1 := by
  intro fuel
  induction fuel with
  | zero => intro v vis stk; exact fun x hx => hx
  | succ f ih =>
    intro v vis stk
    rw [fillOrder]
    exact fun x hx => scanUnvisited_vis_mono ih _ _ stk (subset_setAdd hx)

theorem fillOrder_stk_mono (g : DependencyGraph) :
    ∀ fuel v vis stk, stk ⊆ (fillOrder g fuel v vis stk).2 := by
  intro fuel
  induction fuel with
  | zero => intro v vis stk; exact fun x hx => hx
  | succ f ih =>
    intro v vis stk
    rw [fillOrder]
    intro x hx
    exact List.mem_append_left _ (scanUnvisited_acc_mono ih _ _ stk hx)

theorem fillScan_main (g : DependencyGraph) (f : Nat)
    (hrec : ∀ v vis stk, v ∉ vis → unvisitedKeys g vis < f →
      (∀ x, x ∈ (fillOrder g f v vis stk).2 ↔
        x ∈ stk ∨ (x ∈ (fillOrder g f v vis stk).1 ∧ x ∉ vis)) ∧
      (∀ u, u ∈ (fillOrder g f v vis stk).1 → u ∉ vis →
        ∀ y ∈ adjOf g u, y ∈ (fillOrder g f v vis stk).1) ∧
      v ∈ (fillOrder g f v vis stk).1 ∧
      (∀ x, x ∈ (fillOrder g f v vis stk).1 → x ∈ vis ∨ x = v ∨ ∃ k, x ∈ adjOf g k)) :
    ∀ ns vis stk, (ns = [] ∨ unvisitedKeys g vis < f) →
      (∀ x, x ∈ (scanUnvisited (fillOrder g f) ns vis stk).2 ↔
        x ∈ stk ∨ (x ∈ (scanUnvisited (fillOrder g f) ns vis stk).1 ∧ x ∉ vis)) ∧
      (∀ u, u ∈ (scanUnvisited (fillOrder g f) ns vis stk).1 → u ∉ vis →
        ∀ y ∈ adjOf g u, y ∈ (scanUnvisited (fillOrder g f) ns vis stk).1) ∧
      (∀ n ∈ ns, n ∈ (scanUnvisited (fillOrder g f) ns vis stk).1) ∧
      (∀ x, x ∈ (scanUnvisited (fillOrder g f) ns vis stk).1 →
        x ∈ vis ∨ x ∈ ns ∨ ∃ k, x ∈ adjOf g k) := by
  intro ns
  induction ns with
  | nil =>
    intro vis stk _
    refine ⟨fun x => ?_, fun u hu hnu => absurd hu hnu, by simp, fun x hx => Or.inl hx⟩
    show x ∈ stk ↔ x ∈ stk ∨ (x ∈ vis ∧ x ∉ vis)
    constructor
    · exact fun h => Or.inl h
    · rintro (h | ⟨h1, h2⟩)
      · exact h
      · exact absurd h1 h2
  | cons n rest ih =>
    intro vis stk hfuel
    have hf : unvisitedKeys g vis < f := by
      rcases hfuel with h | h
      · exact absurd h (by simp)
      · exact h
    by_cases hv : n ∈ vis
    · have heq : scanUnvisited (fillOrder g f) (n :: rest) vis stk =
          scanUnvisited (fillOrder g f) rest vis stk := by
        rw [scanUnvisited, if_pos hv]
      rw [heq]
      obtain ⟨Ar, Br, Cr, Er⟩ := ih vis stk (Or.inr hf)
      refine ⟨Ar, Br, fun m hm => ?_, fun x hx => ?_⟩
      · rcases List.mem_cons.mp hm with rfl | hm
        · exact scanUnvisited_vis_mono (fillOrder_vis_mono g f) rest vis stk hv
        · exact Cr m hm
      · rcases Er x hx with h | h | h
        · exact Or.inl h
        · exact Or.inr (Or.inl (List.mem_cons_of_mem _ h))
        · exact Or.inr (Or.inr h)
    · have heq : scanUnvisited (fillOrder g f) (n :: rest) vis stk =
          scanUnvisited (fillOrder g f) rest (fillOrder g f n vis stk).1
            (fillOrder g f n vis stk).2 := by
        rw [scanUnvisited, if_neg hv]
      rw [heq]
      obtain ⟨An, Bn, Cn, En⟩ := hrec n vis stk hv hf
      have hvm₁ : vis ⊆ (fillOrder g f n vis stk).1 := fillOrder_vis_mono g f n vis stk
      obtain ⟨Ar, Br, Cr, Er⟩ := ih (fillOrder g f n vis stk).1
        (fillOrder g f n vis stk).2
        (Or.inr (Nat.lt_of_le_of_lt (unvisitedKeys_mono hvm₁) hf))
      have hvm₂ : (fillOrder g f n vis stk).1 ⊆
          (scanUnvisited (fillOrder g f) rest (fillOrder g f n vis stk).1
            (fillOrder g f n vis stk).2).1 :=
        scanUnvisited_vis_mono (fillOrder_vis_mono g f) rest _ _
      refine ⟨fun x => ?_, fun u hu hnu y hy => ?_, fun m hm => ?_, fun x hx => ?_⟩
      · constructor
        · intro hx
          rcases (Ar x).mp hx with hx | ⟨hx1, hx2⟩
          · rcases (An x).mp hx with hx | ⟨hx1, hx2⟩
            · exact Or.inl hx
            · exact Or.inr ⟨hvm₂ hx1, hx2⟩
          · exact Or.inr ⟨hx1, fun hmem => hx2 (hvm₁ hmem)⟩
        · rintro (hx | ⟨hx1, hx2⟩)
          · exact (Ar x).mpr (Or.inl ((An x).mpr (Or.inl hx)))
          · by_cases hx3 : x ∈ (fillOrder g f n vis stk).1
            · exact (Ar x).mpr (Or.inl ((An x).mpr (Or.inr ⟨hx3, hx2⟩)))
            · exact (Ar x).mpr (Or.inr ⟨hx1, hx3⟩)
      · by_cases hu1 : u ∈ (fillOrder g f n vis stk).1
        · exact hvm₂ (Bn u hu1 hnu y hy)
        · exact Br u hu hu1 y hy
      · rcases List.mem_cons.mp hm with rfl | hm
        · exact hvm₂ (Cn)
        · exact Cr m hm
      · rcases Er x hx with h | h | h
        · rcases En x h with h1 | h1 | h1
          · exact Or.inl h1
          · exact Or.inr (Or.inl (h1 ▸ List.mem_cons_self n rest))
          · exact Or.inr (Or.inr h1)
        · exact Or.inr (Or.inl (List.mem_cons_of_mem _ h))
        · exact Or.inr (Or.inr h)

theorem fillOrder_main (g : DependencyGraph) :
    ∀ fuel v vis stk, v ∉ vis → unvisitedKeys g vis < fuel →
      (∀ x, x ∈ (fillOrder g fuel v vis stk).2 ↔
        x ∈ stk ∨ (x ∈ (fillOrder g fuel v vis stk).1 ∧ x ∉ vis)) ∧
      (∀ u, u ∈ (fillOrder g fuel v vis stk).1 → u ∉ vis →
        ∀ y ∈ adjOf g u, y ∈ (fillOrder g fuel v vis stk).1) ∧
      v ∈ (fillOrder g fuel v vis stk).1 ∧
      (∀ x, x ∈ (fillOrder g fuel v vis stk).1 → x ∈ vis ∨ x = v ∨ ∃ k, x ∈ adjOf g k) := by
  intro fuel
  induction fuel with
  | zero =>
    intro v vis stk _ hf
    exact absurd hf (Nat.not_lt_zero _)
  | succ f ih =>
    intro v vis stk hv hf
    have heq : fillOrder g (f + 1) v vis stk =
        ((scanUnvisited (fillOrder g f) (adjOf g v) (setAdd v vis) stk).1,
         (scanUnvisited (fillOrder g f) (adjOf g v) (setAdd v vis) stk).2 ++ [v]) := by
      rw [fillOrder]
    have hscanhyp : adjOf g v = [] ∨ unvisitedKeys g (setAdd v vis) < f := by
      by_cases hk : v ∈ keys g
      · right
        have h1 := unvisitedKeys_setAdd_lt hk hv
        omega
      · exact Or.inl (adjOf_eq_nil_of_not_key hk)
    obtain ⟨As, Bs, Cs, Es⟩ := fillScan_main g f ih (adjOf g v) (setAdd v vis) stk hscanhyp
    have hself : v ∈ (scanUnvisited (fillOrder g f) (adjOf g v) (setAdd v vis) stk).1 :=
      scanUnvisited_vis_mono (fillOrder_vis_mono g f) _ _ stk (by simp)
    rw [heq]
    refine ⟨fun x => ?_, fun u hu hnu y hy => ?_, hself, fun x hx => ?_⟩
    · simp only [List.mem_append, List.mem_singleton]
      constructor
      · rintro (hx | rfl)
        · rcases (As x).mp hx with hx | ⟨hx1, hx2⟩
          · exact Or.inl hx
          · exact Or.inr ⟨hx1, fun hmem => hx2 (subset_setAdd hmem)⟩
        · exact Or.inr ⟨hself, hv⟩
      · rintro (hx | ⟨hx1, hx2⟩)
        · exact Or.inl ((As x).mpr (Or.inl hx))
        · by_cases hxv : x = v
          · exact Or.inr hxv
          · refine Or.inl ((As x).mpr (Or.inr ⟨hx1, ?_⟩))
            simp only [mem_setAdd]
            rintro (h | h)
            · exact hxv h
            · exact hx2 h
    · by_cases huv : u = v
      · subst huv
        exact Cs y hy
      · refine Bs u hu ?_ y hy
        simp only [mem_setAdd]
        rintro (h | h)
        · exact huv h
        · exact hnu h
    · rcases Es x hx with h | h | h
      · rcases mem_setAdd.mp h with h1 | h1
        · exact Or.inr (Or.inl h1)
        · exact Or.inl h1
      · exact Or.inr (Or.inr ⟨v, h⟩)
      · exact Or.inr (Or.inr h)

theorem fillLoop_vis_mono (g : DependencyGraph) :
    ∀ ks vis stk, vis ⊆ (fillLoop g ks vis stk).1 := by
  intro ks
  induction ks with
  | nil => intro vis stk; exact fun x hx => hx
  | cons p rest ih =>
    intro vis stk
    by_cases hv : p ∈ vis
    · rw [fillLoop, if_pos hv]
      exact ih vis stk
    · rw [fillLoop, if_neg hv]
      exact fun x hx => ih _ _ (fillOrder_vis_mono g (fuelOf g) p vis stk hx)

theorem fillLoop_main (g : DependencyGraph) :
    ∀ ks vis stk,
      (∀ x, x ∈ stk ↔ x ∈ vis) →
      (∀ u ∈ vis, ∀ y ∈ adjOf g u, y ∈ vis) →
      (∀ x ∈ vis, graphPrefixes g x) →
      (∀ k ∈ ks, k ∈ keys g) →
      (∀ x, x ∈ (fillLoop g ks vis stk).2 ↔ x ∈ (fillLoop g ks vis stk).1) ∧
      (∀ u ∈ (fillLoop g ks vis stk).1, ∀ y ∈ adjOf g u, y ∈ (fillLoop g ks vis stk).1) ∧
      (∀ x ∈ (fillLoop g ks vis stk).1, graphPrefixes g x) ∧
      (∀ k ∈ ks, k ∈ (fillLoop g ks vis stk).1) := by
  intro ks
  induction ks with
  | nil =>
    intro vis stk h1 h2 h3 _
    exact ⟨h1, h2, h3, by simp⟩
  | cons p rest ih =>
    intro vis stk h1 h2 h3 h4
    by_cases hv : p ∈ vis
    · have heq : fillLoop g (p :: rest) vis stk = fillLoop g rest vis stk := by
        rw [fillLoop, if_pos hv]
      rw [heq]
      obtain ⟨A, B, C, D⟩ := ih vis stk h1 h2 h3 (fun k hk => h4 k (List.mem_cons_of_mem _ hk))
      refine ⟨A, B, C, fun k hk => ?_⟩
      rcases List.mem_cons.mp hk with rfl | hk
      · exact fillLoop_vis_mono g rest vis stk hv
      · exact D k hk
    · have heq : fillLoop g (p :: rest) vis stk =
          fillLoop g rest (fillOrder g (fuelOf g) p vis stk).1
            (fillOrder g (fuelOf g) p vis stk).2 := by
        rw [fillLoop, if_neg hv]
      rw [heq]
      obtain ⟨A₀, B₀, C₀, E₀⟩ :=
        fillOrder_main g (fuelOf g) p vis stk hv (unvisitedKeys_lt_fuelOf g vis)
      have hvm : vis ⊆ (fillOrder g (fuelOf g) p vis stk).1 :=
        fillOrder_vis_mono g (fuelOf g) p vis stk
      have h1' : ∀ x, x ∈ (fillOrder g (fuelOf g) p vis stk).2 ↔
          x ∈ (fillOrder g (fuelOf g) p vis stk).1 := by
        intro x
        rw [A₀ x]
        constructor
        · rintro (hx | ⟨hx1, _⟩)
          · exact hvm ((h1 x).mp hx)
          · exact hx1
        · intro hx
          by_cases hx2 : x ∈ vis
          · exact Or.inl ((h1 x).mpr hx2)
          · exact Or.inr ⟨hx, hx2⟩
      have h2' : ∀ u ∈ (fillOrder g (fuelOf g) p vis stk).1,
          ∀ y ∈ adjOf g u, y ∈ (fillOrder g (fuelOf g) p vis stk).1 := by
        intro u hu y hy
        by_cases hu2 : u ∈ vis
        · exact hvm (h2 u hu2 y hy)
        · exact B₀ u hu hu2 y hy
      have h3' : ∀ x ∈ (fillOrder g (fuelOf g) p vis stk).1, graphPrefixes g x := by
        intro x hx
        rcases E₀ x hx with h | h | h
        · exact h3 x h
        · exact Or.inl (h ▸ h4 p (by simp))
        · exact Or.inr h
      obtain ⟨A, B, C, D⟩ := ih _ _ h1' h2' h3'
        (fun k hk => h4 k (List.mem_cons_of_mem _ hk))
      refine ⟨A, B, C, fun k hk => ?_⟩
      rcases List.mem_cons.mp hk with rfl | hk
      · exact fillLoop_vis_mono g rest _ _ C₀
      · exact D k hk

/-! ## Claim C3, second pass: components pair up with newly visited sets -/

/-- The visited set and the accumulator grow by exactly the same new
elements (the invariant pairing `dfsComponent`'s visited set with the
component being collected). -/
def SameNews (vis comp vis' comp' : List String) : Prop :=
  (∀ x, x ∈ vis' ↔ x ∈ vis ∨ (x ∈ comp' ∧ x ∉ comp)) ∧
  (∀ x, x ∈ comp' ↔ x ∈ comp ∨ (x ∈ vis' ∧ x ∉ vis))

theorem sameNews_refl (vis comp : List String) : SameNews vis comp vis comp := by
  constructor <;> intro x <;> constructor
  · exact fun h => Or.inl h
  · rintro (h | ⟨h1, h2⟩)
    · exact h
    · exact absurd h1 h2
  · exact fun h => Or.inl h
  · rintro (h | ⟨h1, h2⟩)
    · exact h
    · exact absurd h1 h2

theorem SameNews.trans {vis comp vis₁ comp₁ vis₂ comp₂ : List String}
    (h1 : SameNews vis comp vis₁ comp₁) (h2 : SameNews vis₁ comp₁ vis₂ comp₂) :
    SameNews vis comp vis₂ comp₂ := by
  obtain ⟨h1a, h1b⟩ := h1
  obtain ⟨h2a, h2b⟩ := h2
  constructor <;> intro x <;>
    [have ha1 := h1a x; have ha1 := h1a x] <;>
    have hb1 := h1b x <;> have ha2 := h2a x <;> have hb2 := h2b x <;> tauto

theorem SameNews.comp_sub {vis comp vis' comp' : List String}
    (h : SameNews vis comp vis' comp') (hcv : ∀ x ∈ comp, x ∈ vis) :
    ∀ x ∈ comp', x ∈ vis' := by
  intro x hx
  rcases (h.2 x).mp hx with h1 | ⟨h1, _⟩
  · exact (h.1 x).mpr (Or.inl (hcv x h1))
  · exact h1

theorem SameNews.step {vis comp : List String} {v : String}
    (hv : v ∉ vis) (hcv : ∀ x ∈ comp, x ∈ vis) :
    SameNews vis comp (setAdd v vis) (comp ++ [v]) := by
  constructor <;> intro x
  · rw [mem_setAdd]
    constructor
    · rintro (rfl | h)
      · exact Or.inr ⟨by simp, fun hc => hv (hcv x hc)⟩
      · exact Or.inl h
    · rintro (h | ⟨h1, h2⟩)
      · exact Or.inr h
      · rcases List.mem_append.mp h1 with h1 | h1
        · exact absurd h1 h2
        · exact Or.inl (List.mem_singleton.mp h1)
  · rw [List.mem_append, List.mem_singleton]
    constructor
    · rintro (h | rfl)
      · exact Or.inl h
      · exact Or.inr ⟨by simp, hv⟩
    · rintro (h | ⟨h1, h2⟩)
      · exact Or.inl h
      · rcases mem_setAdd.mp h1 with rfl | h1
        · exact Or.inr rfl
        · exact absurd h1 h2

theorem compScan_pairing
    {rec : String → List String → List String → List String × List String}
    (hrec : ∀ v vis comp, v ∉ vis → (∀ x ∈ comp, x ∈ vis) →
      SameNews vis comp (rec v vis comp).1 (rec v vis comp).2) :
    ∀ ns vis comp, (∀ x ∈ comp, x ∈ vis) →
      SameNews vis comp (scanUnvisited rec ns vis comp).1
        (scanUnvisited rec ns vis comp).2 := by
  intro ns
  induction ns with
  | nil => intro vis comp _; exact sameNews_refl vis comp
  | cons n rest ih =>
    intro vis comp hcv
    by_cases hv : n ∈ vis
    · have heq : scanUnvisited rec (n :: rest) vis comp =
          scanUnvisited rec rest vis comp := by
        rw [scanUnvisited, if_pos hv]
      rw [heq]
      exact ih vis comp hcv
    · have heq : scanUnvisited rec (n :: rest) vis comp =
          scanUnvisited rec rest (rec n vis comp).1 (rec n vis comp).2 := by
        rw [scanUnvisited, if_neg hv]
      rw [heq]
      have hstep := hrec n vis comp hv hcv
      exact hstep.trans (ih _ _ (hstep.comp_sub hcv))

theorem dfsComponent_pairing (t : List (String × List String)) :
    ∀ fuel v vis comp, v ∉ vis → (∀ x ∈ comp, x ∈ vis) →
      SameNews vis comp (dfsComponent t fuel v vis comp).1
        (dfsComponent t fuel v vis comp).2 := by
  intro fuel
  induction fuel with
  | zero => intro v vis comp _ _; exact sameNews_refl vis comp
  | succ f ih =>
    intro v vis comp hv hcv
    have heq : dfsComponent t (f + 1) v vis comp =
        scanUnvisited (dfsComponent t f) (adjOfA t v) (setAdd v vis) (comp ++ [v]) := by
      rw [dfsComponent]
    rw [heq]
    have hstep := SameNews.step hv hcv
    exact hstep.trans (compScan_pairing ih (adjOfA t v) _ _ (hstep.comp_sub hcv))

theorem dfsComponent_vis_mono (t : List (String × List String)) :
    ∀ fuel v vis comp, vis ⊆ (dfsComponent t fuel v vis comp).1 := by
  intro fuel
  induction fuel with
  | zero => intro v vis comp; exact fun x hx => hx
  | succ f ih =>
    intro v vis comp
    rw [dfsComponent]
    exact fun x hx => scanUnvisited_vis_mono ih _ _ _ (subset_setAdd hx)

theorem dfsComponent_self_mem (t : List (String × List String)) (f : Nat)
    (v : String) (vis comp : List String) :
    v ∈ (dfsComponent t (f + 1) v vis comp).1 := by
  rw [dfsComponent]
  exact scanUnvisited_vis_mono (dfsComponent_vis_mono t f) _ _ _ (by simp)

theorem compScan_vis_bound
    {rec : String → List String → List String → List String × List String}
    {t : List (String × List String)}
    (hrec : ∀ v vis comp x, x ∈ (rec v vis comp).1 →
      x ∈ vis ∨ x = v ∨ ∃ k, x ∈ adjOfA t k) :
    ∀ ns vis comp x, x ∈ (scanUnvisited rec ns vis comp).1 →
      x ∈ vis ∨ x ∈ ns ∨ ∃ k, x ∈ adjOfA t k := by
  intro ns
  induction ns with
  | nil => intro vis comp x hx; exact Or.inl hx
  | cons n rest ih =>
    intro vis comp x hx
    by_cases hv : n ∈ vis
    · rw [scanUnvisited, if_pos hv] at hx
      rcases ih vis comp x hx with h | h | h
      · exact Or.inl h
      · exact Or.inr (Or.inl (List.mem_cons_of_mem _ h))
      · exact Or.inr (Or.inr h)
    · rw [scanUnvisited, if_neg hv] at hx
      rcases ih _ _ x hx with h | h | h
      · rcases hrec n vis comp x h with h1 | h1 | h1
        · exact Or.inl h1
        · exact Or.inr (Or.inl (h1 ▸ List.mem_cons_self n rest))
        · exact Or.inr (Or.inr h1)
      · exact Or.inr (Or.inl (List.mem_cons_of_mem _ h))
      · exact Or.inr (Or.inr h)

theorem dfsComponent_vis_bound (t : List (String × List String)) :
    ∀ fuel v vis comp x, x ∈ (dfsComponent t fuel v vis comp).1 →
      x ∈ vis ∨ x = v ∨ ∃ k, x ∈ adjOfA t k := by
  intro fuel
  induction fuel with
  | zero => intro v vis comp x hx; exact Or.inl hx
  | succ f ih =>
    intro v vis comp x hx
    rw [dfsComponent] at hx
    rcases compScan_vis_bound ih _ _ _ x hx with h | h | h
    · rcases mem_setAdd.mp h with rfl | h1
      · exact Or.inr (Or.inl rfl)
      · exact Or.inl h1
    · exact Or.inr (Or.inr ⟨v, h⟩)
    · exact Or.inr (Or.inr h)

theorem sccPop_members (t : List (String × List String)) (fuelT : Nat) :
    ∀ stk vis, ∀ c ∈ sccPop t fuelT stk vis, ∀ x ∈ c,
      x ∉ vis ∧ (x ∈ stk ∨ ∃ k, x ∈ adjOfA t k) := by
  intro stk
  induction stk with
  | nil => intro vis c hc; simp [sccPop] at hc
  | cons v rest ih =>
    intro vis c hc x hx
    by_cases hv : v ∈ vis
    · rw [sccPop, if_pos hv] at hc
      obtain ⟨h1, h2⟩ := ih vis c hc x hx
      refine ⟨h1, ?_⟩
      rcases h2 with h | h
      · exact Or.inl (List.mem_cons_of_mem _ h)
      · exact Or.inr h
    · rw [sccPop, if_neg hv] at hc
      rcases List.mem_cons.mp hc with rfl | hc
      · have hpair := dfsComponent_pairing t fuelT v vis [] hv (by simp)
        have hx1 : x ∈ (dfsComponent t fuelT v vis []).1 ∧ x ∉ vis := by
          rcases (hpair.2 x).mp hx with h | h
          · simp at h
          · exact h
        refine ⟨hx1.2, ?_⟩
        rcases dfsComponent_vis_bound t fuelT v vis [] x hx1.1 with h | h | h
        · exact absurd h hx1.2
        · exact Or.inl (h ▸ List.mem_cons_self v rest)
        · exact Or.inr h
      · obtain ⟨h1, h2⟩ := ih _ c hc x hx
        refine ⟨fun hmem => h1 (dfsComponent_vis_mono t fuelT v vis [] hmem), ?_⟩
        rcases h2 with h | h
        · exact Or.inl (List.mem_cons_of_mem _ h)
        · exact Or.inr h

theorem sccPop_pairwise (t : List (String × List String)) (fuelT : Nat) :
    ∀ stk vis, (sccPop t fuelT stk vis).Pairwise (fun c₁ c₂ => ∀ x ∈ c₁, x ∉ c₂) := by
  intro stk
  induction stk with
  | nil => intro vis; simp [sccPop]
  | cons v rest ih =>
    intro vis
    by_cases hv : v ∈ vis
    · rw [sccPop, if_pos hv]
      exact ih vis
    · rw [sccPop, if_neg hv]
      rw [List.pairwise_cons]
      refine ⟨fun c hc x hx hxc => ?_, ih _⟩
      have hpair := dfsComponent_pairing t fuelT v vis [] hv (by simp)
      have hx1 : x ∈ (dfsComponent t fuelT v vis []).1 := by
        rcases (hpair.2 x).mp hx with h | h
        · simp at h
        · exact h.1
      exact (sccPop_members t fuelT rest _ c hc x hxc).1 hx1

theorem sccPop_covers (t : List (String × List String)) (fuelT : Nat)
    (hF : 0 < fuelT) :
    ∀ stk vis, ∀ x ∈ stk, x ∈ vis ∨ ∃ c ∈ sccPop t fuelT stk vis, x ∈ c := by
  intro stk
  induction stk with
  | nil => intro vis x hx; simp at hx
  | cons v rest ih =>
    intro vis x hx
    by_cases hv : v ∈ vis
    · rcases List.mem_cons.mp hx with rfl | hx
      · exact Or.inl hv
      · rcases ih vis x hx with h | ⟨c, hc, hxc⟩
        · exact Or.inl h
        · refine Or.inr ⟨c, ?_, hxc⟩
          rw [sccPop, if_pos hv]
          exact hc
    · have heq : sccPop t fuelT (v :: rest) vis =
          (dfsComponent t fuelT v vis []).2 ::
            sccPop t fuelT rest (dfsComponent t fuelT v vis []).1 := by
        rw [sccPop, if_neg hv]
      have hpair := dfsComponent_pairing t fuelT v vis [] hv (by simp)
      rcases List.mem_cons.mp hx with rfl | hx
      · refine Or.inr ⟨(dfsComponent t fuelT x vis []).2, by rw [heq]; simp, ?_⟩
        obtain ⟨f, rfl⟩ : ∃ f, fuelT = f + 1 := ⟨fuelT - 1, by omega⟩
        exact (hpair.2 x).mpr (Or.inr ⟨dfsComponent_self_mem t f x vis [], hv⟩)
      · rcases ih (dfsComponent t fuelT v vis []).1 x hx with h | ⟨c, hc, hxc⟩
        · by_cases h2 : x ∈ vis
          · exact Or.inl h2
          · refine Or.inr ⟨(dfsComponent t fuelT v vis []).2, by rw [heq]; simp, ?_⟩
            exact (hpair.2 x).mpr (Or.inr ⟨h, h2⟩)
        · refine Or.inr ⟨c, ?_, hxc⟩
          rw [heq]
          exact List.mem_cons_of_mem _ hc

/-! ## Claim C3: targets of the transposed graph are original keys -/

theorem mem_adjOfA_addEdge_elim {l : List (String × List String)}
    {a b k x : String} (h : x ∈ adjOfA (addEdge a b l) k) :
    x = b ∨ x ∈ adjOfA l k := by
  rw [adjOfA_addEdge] at h
  by_cases hk : a = k
  · rw [if_pos hk] at h
    rcases mem_setAdd.mp h with h1 | h1
    · exact Or.inl h1
    · exact Or.inr h1
  · rw [if_neg hk] at h
    exact Or.inr h

theorem transpose_target_key (g : DependencyGraph) :
    ∀ x k, x ∈ adjOfA (transposeGraph g) k → x ∈ keys g := by
  have inner : ∀ (f : String) (ts : List String) (acc : List (String × List String)),
      (∀ x k, x ∈ adjOfA acc k → x ∈ keys g) → f ∈ keys g →
      ∀ x k, x ∈ adjOfA (ts.foldl (fun acc t => addEdge t f acc) acc) k → x ∈ keys g := by
    intro f ts
    induction ts with
    | nil => intro acc hacc _ x k hx; exact hacc x k hx
    | cons t rest ih =>
      intro acc hacc hf x k hx
      refine ih (addEdge t f acc) ?_ hf x k hx
      intro y k' hy
      rcases mem_adjOfA_addEdge_elim hy with rfl | hy
      · exact hf
      · exact hacc y k' hy
  have outer : ∀ (l : List (String × List String)) (acc : List (String × List String)),
      (∀ x k, x ∈ adjOfA acc k → x ∈ keys g) → (∀ p ∈ l, p.1 ∈ keys g) →
      ∀ x k, x ∈ adjOfA (l.foldl (fun acc p => p.2.foldl (fun acc t => addEdge t p.1 acc) acc) acc) k →
        x ∈ keys g := by
    intro l
    induction l with
    | nil => intro acc hacc _ x k hx; exact hacc x k hx
    | cons p rest ih =>
      intro acc hacc hl x k hx
      refine ih _ ?_ (fun q hq => hl q (List.mem_cons_of_mem _ hq)) x k hx
      exact inner p.1 p.2 acc hacc (hl p (by simp))
  intro x k hx
  refine outer g.prefixDependencies [] (by simp [adjOfA]) ?_ x k hx
  intro p hp
  exact by simpa [keys] using List.mem_map_of_mem Prod.fst hp

/-- Claim C3 (confirmed). The components returned by
`findStronglyConnectedComponents` are pairwise disjoint, and their union
is exactly the set of prefixes occurring in the prefix graph (the keys of
the adjacency map together with all adjacency targets): no prefix is in
two components and none is omitted. -/
theorem findSCC_partition (g : DependencyGraph) :
    (findStronglyConnectedComponents g).Pairwise (fun c₁ c₂ => ∀ x ∈ c₁, x ∉ c₂) ∧
    ∀ x, (∃ c ∈ findStronglyConnectedComponents g, x ∈ c) ↔ graphPrefixes g x := by
  have heq : findStronglyConnectedComponents g =
      sccPop (transposeGraph g) ((transposeGraph g).length + 1)
        (fillLoop g (keys g) [] []).2.reverse [] := rfl
  obtain ⟨A, B, C, D⟩ := fillLoop_main g (keys g) [] []
    (by simp) (by simp) (by simp) (fun k hk => hk)
  constructor
  · rw [heq]
    exact sccPop_pairwise _ _ _ []
  · intro x
    rw [heq]
    constructor
    · rintro ⟨c, hc, hxc⟩
      obtain ⟨_, h2⟩ := sccPop_members _ _ _ [] c hc x hxc
      rcases h2 with h | ⟨k, hk⟩
      · exact C x ((A x).mp (List.mem_reverse.mp h))
      · exact Or.inl (transpose_target_key g x k hk)
    · intro hx
      have hxv : x ∈ (fillLoop g (keys g) [] []).1 := by
        rcases hx with h | ⟨k, hk⟩
        · exact D x h
        · exact B k (D k (key_of_mem_adjOf hk)) x hk
      have hxs : x ∈ (fillLoop g (keys g) [] []).2.reverse :=
        List.mem_reverse.mpr ((A x).mpr hxv)
      rcases sccPop_covers (transposeGraph g) ((transposeGraph g).length + 1)
        (by omega) _ [] x hxs with h | h
      · simp at h
      · exact h

/-! ## Claim C4: machinery for the three-directory-cycle scenario -/

/-- The endpoint prefixes of a dependency edge. -/
def prefixPair (dep : ModuleDependency) : String × String :=
  (extractModulePrefix dep.fromName, extractModulePrefix dep.toName)

/-- The cross-prefix dependency edges of a module list, in Module order
then source order. -/
def crossDeps (mods : List ModuleInfo) : List ModuleDependency :=
  (mods.foldr (fun mo acc => mo.dependencies ++ acc) []).filter
    (fun dep => decide (extractModulePrefix dep.fromName ≠ extractModulePrefix dep.toName))

theorem foldl_addDepEdge_eq (deps : List ModuleDependency)
    (acc : List (String × List String)) :
    deps.foldl addDepEdge acc =
      (deps.filter (fun dep =>
        decide (extractModulePrefix dep.fromName ≠ extractModulePrefix dep.toName))).foldl
        (fun adj dep =>
          addEdge (extractModulePrefix dep.fromName) (extractModulePrefix dep.toName) adj)
        acc := by
  induction deps generalizing acc with
  | nil => rfl
  | cons d rest ih =>
    by_cases hcross : extractModulePrefix d.fromName ≠ extractModulePrefix d.toName
    · rw [List.foldl_cons, List.filter_cons_of_pos (by simpa using hcross),
        List.foldl_cons]
      rw [show addDepEdge acc d =
        addEdge (extractModulePrefix d.fromName) (extractModulePrefix d.toName) acc          from by rw [addDepEdge, if_pos hcross]]
      exact ih _
    · rw [List.foldl_cons, List.filter_cons_of_neg (by simpa using hcross)]
      rw [show addDepEdge acc d = acc from by rw [addDepEdge, if_neg hcross]]
      exact ih _

theorem flatDeps_mem (mods : List ModuleInfo) (x : ModuleDependency) :
    x ∈ mods.foldr (fun mo acc => mo.dependencies ++ acc) [] ↔
      ∃ mo ∈ mods, x ∈ mo.dependencies := by
  induction mods with
  | nil => simp
  | cons mo rest ih =>
    simp only [List.foldr_cons, List.mem_append, ih]
    constructor
    · rintro (h | ⟨m, hm, hx⟩)
      · exact ⟨mo, by simp, h⟩
      · exact ⟨m, List.mem_cons_of_mem _ hm, hx⟩
    · rintro ⟨m, hm, hx⟩
      rcases List.mem_cons.mp hm with rfl | hm
      · exact Or.inl hx
      · exact Or.inr ⟨m, hm, hx⟩

theorem buildAdj_eq_crossDeps (mods : List ModuleInfo) :
    buildAdj mods = (crossDeps mods).foldl
      (fun adj dep =>
        addEdge (extractModulePrefix dep.fromName) (extractModulePrefix dep.toName) adj)
      [] := by
  unfold buildAdj crossDeps
  have main : ∀ (l : List ModuleInfo) (acc : List (String × List String)),
      l.foldl (fun adj mo => mo.dependencies.foldl addDepEdge adj) acc =
      ((l.foldr (fun mo acc => mo.dependencies ++ acc) []).filter
        (fun dep =>
          decide (extractModulePrefix dep.fromName ≠ extractModulePrefix dep.toName))).foldl
        (fun adj dep =>
          addEdge (extractModulePrefix dep.fromName) (extractModulePrefix dep.toName) adj)
        acc := by
    intro l
    induction l with
    | nil => intro acc; rfl
    | cons mo rest ih =>
      intro acc
      rw [List.foldl_cons, ih, List.foldr_cons, List.filter_append, List.foldl_append,
        foldl_addDepEdge_eq]
  exact main mods []

theorem mem_crossDeps (mods : List ModuleInfo) (dep : ModuleDependency) :
    dep ∈ crossDeps mods ↔
      (∃ mo ∈ mods, dep ∈ mo.dependencies) ∧
        extractModulePrefix dep.fromName ≠ extractModulePrefix dep.toName := by
  unfold crossDeps
  rw [List.mem_filter, flatDeps_mem]
  simp

theorem adjOfA_foldDeps (l : List ModuleDependency)
    (adj : List (String × List String)) (x : String) :
    adjOfA (l.foldl (fun adj dep =>
      addEdge (extractModulePrefix dep.fromName) (extractModulePrefix dep.toName) adj) adj) x =
    (l.filter (fun dep => decide (extractModulePrefix dep.fromName = x))).foldl
      (fun s dep => setAdd (extractModulePrefix dep.toName) s) (adjOfA adj x) := by
  induction l generalizing adj with
  | nil => rfl
  | cons d rest ih =>
    rw [List.foldl_cons, ih]
    by_cases hd : extractModulePrefix d.fromName = x
    · rw [List.filter_cons_of_pos (by simpa using hd), List.foldl_cons,
        adjOfA_addEdge, if_pos hd]
    · rw [List.filter_cons_of_neg (by simpa using hd),
        adjOfA_addEdge, if_neg hd]

theorem adjOfA_foldPairs (l : List (String × String))
    (adj : List (String × List String)) (x : String) :
    adjOfA (l.foldl (fun adj pr => addEdge pr.1 pr.2 adj) adj) x =
    (l.filter (fun pr => decide (pr.1 = x))).foldl
      (fun s pr => setAdd pr.2 s) (adjOfA adj x) := by
  induction l generalizing adj with
  | nil => rfl
  | cons d rest ih =>
    rw [List.foldl_cons, ih]
    by_cases hd : d.1 = x
    · rw [List.filter_cons_of_pos (by simpa using hd), List.foldl_cons,
        adjOfA_addEdge, if_pos hd]
    · rw [List.filter_cons_of_neg (by simpa using hd),
        adjOfA_addEdge, if_neg hd]

theorem mem_foldl_setAdd_pairs (l : List (String × String))
    (s₀ : List String) (x : String) :
    x ∈ l.foldl (fun s pr => setAdd pr.2 s) s₀ ↔ x ∈ s₀ ∨ ∃ pr ∈ l, pr.2 = x := by
  induction l generalizing s₀ with
  | nil => simp
  | cons a rest ih =>
    rw [List.foldl_cons, ih]
    simp only [mem_setAdd, List.mem_cons]
    constructor
    · rintro ((rfl | h) | ⟨b, hb, hf⟩)
      · exact Or.inr ⟨a, Or.inl rfl, rfl⟩
      · exact Or.inl h
      · exact Or.inr ⟨b, Or.inr hb, hf⟩
    · rintro (h | ⟨b, rfl | hb, hf⟩)
      · exact Or.inl (Or.inr h)
      · exact Or.inl (Or.inl hf.symm)
      · exact Or.inr ⟨b, hb, hf⟩

/-- The transposed edges `(target, source)` of an adjacency list, in
processing order. -/
def transPairs (l : List (String × List String)) : List (String × String) :=
  l.foldr (fun p acc => p.2.map (fun t => (t, p.1)) ++ acc) []

theorem transposeGraph_eq_foldPairs (g : DependencyGraph) :
    transposeGraph g = (transPairs g.prefixDependencies).foldl
      (fun adj pr => addEdge pr.1 pr.2 adj) [] := by
  unfold transposeGraph transPairs
  have main : ∀ (l : List (String × List String)) (acc : List (String × List String)),
      l.foldl (fun acc p => p.2.foldl (fun acc t => addEdge t p.1 acc) acc) acc =
      (l.foldr (fun p acc => p.2.map (fun t => (t, p.1)) ++ acc) []).foldl
        (fun adj pr => addEdge pr.1 pr.2 adj) acc := by
    intro l
    induction l with
    | nil => intro acc; rfl
    | cons p rest ih =>
      intro acc
      rw [List.foldl_cons, ih, List.foldr_cons, List.foldl_append, List.foldl_map]
  exact main g.prefixDependencies []

theorem mem_transPairs (l : List (String × List String)) (pr : String × String) :
    pr ∈ transPairs l ↔ ∃ p ∈ l, pr.2 = p.1 ∧ pr.1 ∈ p.2 := by
  unfold transPairs
  induction l with
  | nil => simp
  | cons p rest ih =>
    simp only [List.foldr_cons, List.mem_append, ih, List.mem_map]
    constructor
    · rintro (⟨t, ht, rfl⟩ | ⟨q, hq, h1, h2⟩)
      · exact ⟨p, by simp, rfl, ht⟩
      · exact ⟨q, List.mem_cons_of_mem _ hq, h1, h2⟩
    · rintro ⟨q, hq, h1, h2⟩
      rcases List.mem_cons.mp hq with rfl | hq
      · exact Or.inl ⟨pr.1, h2, by rw [← h1]⟩
      · exact Or.inr ⟨q, hq, h1, h2⟩

theorem adjOfA_of_mem_nodup {l : List (String × List String)} {k : String}
    {s : List String} (hmem : (k, s) ∈ l) (hnd : (l.map Prod.fst).Nodup) :
    adjOfA l k = s := by
  induction l with
  | nil => simp at hmem
  | cons p rest ih =>
    obtain ⟨k', s'⟩ := p
    simp only [List.map_cons, List.nodup_cons] at hnd
    rcases List.mem_cons.mp hmem with heq | hmem
    · cases heq
      rw [adjOfA, if_pos rfl]
    · have hk : k' ≠ k := by
        intro he
        exact hnd.1 (he ▸ (by simpa using List.mem_map_of_mem Prod.fst hmem))
      rw [adjOfA, if_neg hk]
      exact ih hmem hnd.2

theorem mem_adjOf_transpose {g : DependencyGraph}
    (hnd : (g.prefixDependencies.map Prod.fst).Nodup) (x k : String) :
    x ∈ adjOfA (transposeGraph g) k ↔ k ∈ adjOf g x := by
  rw [transposeGraph_eq_foldPairs, adjOfA_foldPairs]
  have hbase : adjOfA ([] : List (String × List String)) k = [] := rfl
  rw [hbase]
  rw [mem_foldl_setAdd_pairs]
  simp only [List.not_mem_nil, false_or, List.mem_filter, decide_eq_true_eq]
  constructor
  · rintro ⟨pr, ⟨hpr, hk⟩, hx⟩
    obtain ⟨p, hp, h1, h2⟩ := (mem_transPairs _ pr).mp hpr
    have hadj : adjOfA g.prefixDependencies p.1 = p.2 :=
      adjOfA_of_mem_nodup (by rwa [← Prod.mk.eta (p := p)] at hp) hnd
    show k ∈ adjOfA g.prefixDependencies x
    rw [← hx, h1, hadj, ← hk]
    exact h2
  · intro hk
    obtain ⟨p, hp, hpa, hpb⟩ := mem_adjOfA_entry hk
    refine ⟨(k, x), ⟨(mem_transPairs _ (k, x)).mpr ⟨p, hp, by rw [hpa], hpb⟩, rfl⟩, rfl⟩

theorem values_foldPairs_nodup (l : List (String × String)) :
    ∀ p ∈ l.foldl (fun adj pr => addEdge pr.1 pr.2 adj) ([] : List (String × List String)),
      List.Nodup p.2 := by
  have main : ∀ (l : List (String × String)) (acc : List (String × List String)),
      (∀ p ∈ acc, List.Nodup p.2) →
      ∀ p ∈ l.foldl (fun adj pr => addEdge pr.1 pr.2 adj) acc, List.Nodup p.2 := by
    intro l
    induction l with
    | nil => intro acc h; exact h
    | cons pr rest ih =>
      intro acc h
      exact ih _ (values_addEdge_nodup h)
  exact main l [] (by simp)

theorem keys_foldPairs_mem (l : List (String × String))
    (acc : List (String × List String)) (x : String) :
    x ∈ (l.foldl (fun adj pr => addEdge pr.1 pr.2 adj) acc).map Prod.fst ↔
      x ∈ acc.map Prod.fst ∨ ∃ pr ∈ l, pr.1 = x := by
  induction l generalizing acc with
  | nil => simp
  | cons pr rest ih =>
    rw [List.foldl_cons, ih]
    rw [keys_addEdge]
    constructor
    · rintro ((rfl | h) | ⟨q, hq, hx⟩)
      · exact Or.inr ⟨pr, by simp, rfl⟩
      · exact Or.inl h
      · exact Or.inr ⟨q, List.mem_cons_of_mem _ hq, hx⟩
    · rintro (h | ⟨q, hq, hx⟩)
      · exact Or.inl (Or.inr h)
      · rcases List.mem_cons.mp hq with rfl | hq
        · exact Or.inl (Or.inl hx.symm)
        · exact Or.inr ⟨q, hq, hx⟩

theorem keys_foldPairs_nodup (l : List (String × String)) :
    ((l.foldl (fun adj pr => addEdge pr.1 pr.2 adj) ([] : List (String × List String))).map
      Prod.fst).Nodup := by
  have main : ∀ (l : List (String × String)) (acc : List (String × List String)),
      (acc.map Prod.fst).Nodup →
      ((l.foldl (fun adj pr => addEdge pr.1 pr.2 adj) acc).map Prod.fst).Nodup := by
    intro l
    induction l with
    | nil => intro acc h; exact h
    | cons pr rest ih =>
      intro acc h
      exact ih _ (keys_addEdge_nodup h)
  exact main l [] (by simp)

theorem nodup_mem_singleton {l : List String} {a : String} (hnd : l.Nodup)
    (h : ∀ x, x ∈ l ↔ x = a) : l = [a] := by
  cases l with
  | nil => exact absurd ((h a).mpr rfl) (by simp)
  | cons x rest =>
    have hx : x = a := (h x).mp (by simp)
    subst hx
    cases rest with
    | nil => rfl
    | cons y rest' =>
      have hy : y = x := (h y).mp (by simp)
      rw [List.nodup_cons] at hnd
      exact absurd (hy ▸ List.mem_cons_self y rest') hnd.1

theorem mapSet_append {α : Type} (k : String) (v : α) (acc : List (String × α))
    (h : k ∉ acc.map Prod.fst) : mapSet k v acc = acc ++ [(k, v)] := by
  induction acc with
  | nil => rfl
  | cons p rest ih =>
    obtain ⟨k', v'⟩ := p
    simp only [List.map_cons, List.mem_cons] at h
    push_neg at h
    rw [mapSet, if_neg h.1, ih h.2]
    rfl

theorem modules_eq_pairs (mods : List ModuleInfo)
    (hnames : (mods.map ModuleInfo.name).Nodup) :
    (buildGraph mods).modules = mods.map (fun mo => (mo.name, mo)) := by
  show mods.foldl (fun m mo => mapSet mo.name mo m) [] = _
  have main : ∀ (l : List ModuleInfo) (acc : List (String × ModuleInfo)),
      (l.map ModuleInfo.name).Nodup →
      (∀ mo ∈ l, mo.name ∉ acc.map Prod.fst) →
      l.foldl (fun m mo => mapSet mo.name mo m) acc =
        acc ++ l.map (fun mo => (mo.name, mo)) := by
    intro l
    induction l with
    | nil => intro acc _ _; simp
    | cons mo rest ih =>
      intro acc hnd hacc
      simp only [List.map_cons, List.nodup_cons] at hnd
      rw [List.foldl_cons, mapSet_append mo.name mo acc (hacc mo (by simp))]
      rw [ih (acc ++ [(mo.name, mo)]) hnd.2 ?_]
      · simp
      · intro m hm
        simp only [List.map_append, List.mem_append]
        push_neg
        refine ⟨hacc m (List.mem_cons_of_mem _ hm), ?_⟩
        simp only [List.map_cons, List.map_nil, List.mem_singleton]
        intro he
        exact hnd.1 (he ▸ List.mem_map_of_mem ModuleInfo.name hm)
  exact main mods [] hnames (by simp)

theorem feedbackLoop_skip (g : DependencyGraph) :
    ∀ ks vis, (∀ k ∈ ks, k ∈ vis) → feedbackLoop g ks vis = [] := by
  intro ks
  induction ks with
  | nil => intro vis _; rfl
  | cons p rest ih =>
    intro vis h
    rw [feedbackLoop, if_pos (h p (by simp))]
    exact ih vis (fun k hk => h k (List.mem_cons_of_mem _ hk))

theorem fillLoop_skip (g : DependencyGraph) :
    ∀ ks vis stk, (∀ k ∈ ks, k ∈ vis) → fillLoop g ks vis stk = (vis, stk) := by
  intro ks
  induction ks with
  | nil => intro vis stk _; rfl
  | cons p rest ih =>
    intro vis stk h
    rw [fillLoop, if_pos (h p (by simp))]
    exact ih vis stk (fun k hk => h k (List.mem_cons_of_mem _ hk))

theorem sccPop_skip (t : List (String × List String)) (fuelT : Nat) :
    ∀ stk vis, (∀ v ∈ stk, v ∈ vis) → sccPop t fuelT stk vis = [] := by
  intro stk
  induction stk with
  | nil => intro vis _; rfl
  | cons v rest ih =>
    intro vis h
    rw [sccPop, if_pos (h v (by simp))]
    exact ih vis (fun k hk => h k (List.mem_cons_of_mem _ hk))

theorem crossDeps_cons (mo : ModuleInfo) (rest : List ModuleInfo) :
    crossDeps (mo :: rest) =
      mo.dependencies.filter (fun dep =>
        decide (extractModulePrefix dep.fromName ≠ extractModulePrefix dep.toName)) ++
        crossDeps rest := by
  unfold crossDeps
  rw [List.foldr_cons, List.filter_append]

theorem triangle_dfsVisit (g : DependencyGraph) (a b c : String)
    (hab : a ≠ b) (hbc : b ≠ c) (hca : c ≠ a)
    (ha : adjOf g a = [b]) (hb : adjOf g b = [c]) (hc : adjOf g c = [a]) :
    dfsVisit g 4 a [] [] =
      ([a, b, c], [{ fromName := c, toName := a, violations := findViolations c a g }]) := by
  simp [dfsVisit, dfsScan, setAdd, ha, hb, hc, hab, hbc, hca,
    Ne.symm hab, Ne.symm hbc, Ne.symm hca]

theorem triangle_fillOrder (g : DependencyGraph) (a b c : String)
    (hab : a ≠ b) (hbc : b ≠ c) (hca : c ≠ a)
    (ha : adjOf g a = [b]) (hb : adjOf g b = [c]) (hc : adjOf g c = [a]) :
    fillOrder g 4 a [] [] = ([a, b, c], [c, b, a]) := by
  simp [fillOrder, scanUnvisited, setAdd, ha, hb, hc, hab, hbc, hca,
    Ne.symm hab, Ne.symm hbc, Ne.symm hca]

theorem triangle_dfsComponent (t : List (String × List String)) (a b c : String)
    (hab : a ≠ b) (hbc : b ≠ c) (hca : c ≠ a)
    (hta : adjOfA t a = [c]) (htc : adjOfA t c = [b]) (htb : adjOfA t b = [a]) :
    dfsComponent t 4 a [] [] = ([a, c, b], [a, c, b]) := by
  simp [dfsComponent, scanUnvisited, setAdd, hta, htb, htc, hab, hbc, hca,
    Ne.symm hab, Ne.symm hbc, Ne.symm hca]

theorem filter_prefixPair (l : List ModuleDependency) (X : String) :
    (l.filter (fun dep => decide (extractModulePrefix dep.fromName = X))).map prefixPair =
      (l.map prefixPair).filter (fun pr => decide (pr.1 = X)) := by
  induction l with
  | nil => rfl
  | cons d rest ih =>
    by_cases hd : extractModulePrefix d.fromName = X
    · rw [List.filter_cons_of_pos (by simpa using hd), List.map_cons, List.map_cons,
        List.filter_cons_of_pos (by simpa using hd), ih]
    · rw [List.filter_cons_of_neg (by simpa using hd), List.map_cons,
        List.filter_cons_of_neg (by simpa using hd), ih]

theorem adjOf_buildGraph_single (mods : List ModuleInfo) (X Y : String)
    (h : ((crossDeps mods).map prefixPair).filter (fun pr => decide (pr.1 = X)) =
      [(X, Y)]) :
    adjOf (buildGraph mods) X = [Y] := by
  have heq : adjOf (buildGraph mods) X = adjOfA (buildAdj mods) X := rfl
  rw [heq, buildAdj_eq_crossDeps, adjOfA_foldDeps]
  rw [← filter_prefixPair] at h
  obtain ⟨e, he, hpe⟩ : ∃ e,
      (crossDeps mods).filter (fun dep => decide (extractModulePrefix dep.fromName = X)) =
        [e] ∧ prefixPair e = (X, Y) := by
    cases hl : (crossDeps mods).filter
        (fun dep => decide (extractModulePrefix dep.fromName = X)) with
    | nil => rw [hl] at h; simp at h
    | cons e rest =>
      rw [hl] at h
      simp only [List.map_cons] at h
      have h1 : prefixPair e = (X, Y) := by
        have := congrArg (fun l => l.headD (X, Y)) h
        simpa using this
      have h2 : rest = [] := by
        have := congrArg List.length h
        simp at this
        exact this
      exact ⟨e, by rw [h2], h1⟩
  rw [he]
  have hY : extractModulePrefix e.toName = Y := congrArg Prod.snd hpe
  show setAdd (extractModulePrefix e.toName) (adjOfA [] X) = [Y]
  rw [hY]
  rfl

theorem taggedFilter_eq (comp : List String) :
    ∀ mods' : List ModuleInfo,
      (∀ mo ∈ mods', ∀ dep ∈ mo.dependencies, dep.fromName = mo.name) →
      (∀ mo ∈ mods', ∀ dep ∈ mo.dependencies,
        extractModulePrefix dep.fromName ≠ extractModulePrefix dep.toName →
        extractModulePrefix dep.fromName ∈ comp ∧ extractModulePrefix dep.toName ∈ comp) →
      ((mods'.foldr (fun mo acc =>
          mo.dependencies.map (fun dep => (extractModulePrefix mo.name, dep)) ++ acc) []).filter
        (fun pd => decide (pd.1 ∈ comp ∧ extractModulePrefix pd.2.toName ∈ comp ∧
          pd.1 ≠ extractModulePrefix pd.2.toName))).map Prod.snd = crossDeps mods' := by
  intro mods'
  induction mods' with
  | nil => intro _ _; rfl
  | cons mo rest ih =>
    intro hown hP
    rw [List.foldr_cons, List.filter_append, List.map_append, crossDeps_cons,
      ih (fun m hm => hown m (List.mem_cons_of_mem _ hm))
         (fun m hm => hP m (List.mem_cons_of_mem _ hm))]
    congr 1
    rw [List.filter_map]
    have hcongr : ∀ dep ∈ mo.dependencies,
        ((fun pd => decide ((pd : String × ModuleDependency).1 ∈ comp ∧
            extractModulePrefix pd.2.toName ∈ comp ∧
            pd.1 ≠ extractModulePrefix pd.2.toName)) ∘
          (fun dep => (extractModulePrefix mo.name, dep))) dep =
        decide (extractModulePrefix dep.fromName ≠ extractModulePrefix dep.toName) := by
      intro dep hdep
      have hname : extractModulePrefix dep.fromName = extractModulePrefix mo.name := by
        rw [hown mo (by simp) dep hdep]
      simp only [Function.comp_apply]
      rw [decide_eq_decide]
      constructor
      · rintro ⟨_, _, hne⟩
        rw [hname]
        exact hne
      · intro hcross
        obtain ⟨h1, h2⟩ := hP mo (by simp) dep hdep hcross
        rw [← hname]
        exact ⟨h1, h2, hname ▸ hcross⟩
    rw [List.filter_congr hcongr, List.map_map]
    simp

/-- Complete analysis of a graph whose prefix adjacency is exactly the
three-cycle `A → B → C → A`: Kosaraju returns the single component
discovered from the first key, and the feedback-arc DFS records exactly
the one back edge closing the cycle. -/
theorem triangleGraph_results (g : DependencyGraph) (A B C : String)
    (hAB : A ≠ B) (hBC : B ≠ C) (hCA : C ≠ A)
    (hknd : (keys g).Nodup)
    (hkey_iff : ∀ x, x ∈ keys g ↔ x = A ∨ x = B ∨ x = C)
    (hadjA : adjOf g A = [B]) (hadjB : adjOf g B = [C]) (hadjC : adjOf g C = [A]) :
    ∃ k₁ v₂ v₃,
      (∀ x, (x = A ∨ x = B ∨ x = C) ↔ (x = k₁ ∨ x = v₂ ∨ x = v₃)) ∧
      findStronglyConnectedComponents g = [[k₁, v₃, v₂]] ∧
      findFeedbackArcs g =
        [{ fromName := v₃, toName := k₁, violations := findViolations v₃ k₁ g }] := by
  have hkperm : (keys g).Perm [A, B, C] := by
    refine (List.perm_ext_iff_of_nodup hknd ?_).mpr ?_
    · simp [hAB, hBC, Ne.symm hCA]
    · intro x
      rw [hkey_iff x]
      simp
  have hklen : (keys g).length = 3 := by simpa using hkperm.length_eq
  have hglen : g.prefixDependencies.length = 3 := by simpa [keys] using hklen
  have hfuel : fuelOf g = 4 := by rw [fuelOf, hglen]
  have hvalnd : ∀ p ∈ transposeGraph g, List.Nodup p.2 := by
    rw [transposeGraph_eq_foldPairs]
    exact values_foldPairs_nodup _
  have hmt : ∀ x k, x ∈ adjOfA (transposeGraph g) k ↔ k ∈ adjOf g x :=
    fun x k => mem_adjOf_transpose hknd x k
  have hadj_cases : ∀ x y, y ∈ adjOf g x →
      (x = A ∧ y = B) ∨ (x = B ∧ y = C) ∨ (x = C ∧ y = A) := by
    intro x y hy
    have hx : x ∈ keys g := key_of_mem_adjOf hy
    rcases (hkey_iff x).mp hx with rfl | rfl | rfl
    · rw [hadjA] at hy
      exact Or.inl ⟨rfl, by simpa using hy⟩
    · rw [hadjB] at hy
      exact Or.inr (Or.inl ⟨rfl, by simpa using hy⟩)
    · rw [hadjC] at hy
      exact Or.inr (Or.inr ⟨rfl, by simpa using hy⟩)
  have htA : adjOfA (transposeGraph g) A = [C] := by
    refine nodup_mem_singleton (adjOfA_nodup hvalnd A) ?_
    intro x
    rw [hmt x A]
    constructor
    · intro hx
      rcases hadj_cases x A hx with ⟨rfl, h⟩ | ⟨rfl, h⟩ | ⟨rfl, _⟩
      · exact absurd h hAB
      · exact absurd h.symm hCA
      · rfl
    · rintro rfl
      rw [hadjC]
      simp
  have htB : adjOfA (transposeGraph g) B = [A] := by
    refine nodup_mem_singleton (adjOfA_nodup hvalnd B) ?_
    intro x
    rw [hmt x B]
    constructor
    · intro hx
      rcases hadj_cases x B hx with ⟨rfl, _⟩ | ⟨rfl, h⟩ | ⟨rfl, h⟩
      · rfl
      · exact absurd h hBC
      · exact absurd h.symm hAB
    · rintro rfl
      rw [hadjA]
      simp
  have htC : adjOfA (transposeGraph g) C = [B] := by
    refine nodup_mem_singleton (adjOfA_nodup hvalnd C) ?_
    intro x
    rw [hmt x C]
    constructor
    · intro hx
      rcases hadj_cases x C hx with ⟨rfl, h⟩ | ⟨rfl, _⟩ | ⟨rfl, h⟩
      · exact absurd h.symm hBC
      · rfl
      · exact absurd h hCA
    · rintro rfl
      rw [hadjB]
      simp
  have htknd : ((transposeGraph g).map Prod.fst).Nodup := by
    rw [transposeGraph_eq_foldPairs]
    exact keys_foldPairs_nodup _
  have htkey_iff : ∀ x, x ∈ (transposeGraph g).map Prod.fst ↔ (x = A ∨ x = B ∨ x = C) := by
    intro x
    rw [transposeGraph_eq_foldPairs, keys_foldPairs_mem]
    simp only [List.map_nil, List.not_mem_nil, false_or]
    constructor
    · rintro ⟨pr, hpr, hx⟩
      subst hx
      obtain ⟨p, hp, h1, h2⟩ := (mem_transPairs _ pr).mp hpr
      have hadj : adjOfA g.prefixDependencies p.1 = p.2 :=
        adjOfA_of_mem_nodup (by rwa [← Prod.mk.eta (p := p)] at hp) hknd
      have hmem : pr.1 ∈ adjOf g p.1 := by
        rw [adjOf, hadj]
        exact h2
      rcases hadj_cases p.1 pr.1 hmem with ⟨_, h⟩ | ⟨_, h⟩ | ⟨_, h⟩
      · exact Or.inr (Or.inl h)
      · exact Or.inr (Or.inr h)
      · exact Or.inl h
    · rintro (h | h | h)
      · obtain ⟨p, hp, hpa, hpb⟩ :=
          mem_adjOfA_entry (show A ∈ adjOf g C from by rw [hadjC]; simp)
        exact ⟨(A, C), (mem_transPairs _ (A, C)).mpr ⟨p, hp, hpa.symm, hpb⟩, h.symm⟩
      · obtain ⟨p, hp, hpa, hpb⟩ :=
          mem_adjOfA_entry (show B ∈ adjOf g A from by rw [hadjA]; simp)
        exact ⟨(B, A), (mem_transPairs _ (B, A)).mpr ⟨p, hp, hpa.symm, hpb⟩, h.symm⟩
      · obtain ⟨p, hp, hpa, hpb⟩ :=
          mem_adjOfA_entry (show C ∈ adjOf g B from by rw [hadjB]; simp)
        exact ⟨(C, B), (mem_transPairs _ (C, B)).mpr ⟨p, hp, hpa.symm, hpb⟩, h.symm⟩
  have htperm : ((transposeGraph g).map Prod.fst).Perm [A, B, C] := by
    refine (List.perm_ext_iff_of_nodup htknd ?_).mpr ?_
    · simp [hAB, hBC, Ne.symm hCA]
    · intro x
      rw [htkey_iff x]
      simp
  have htlen : (transposeGraph g).length = 3 := by simpa using htperm.length_eq
  have hrot : ∀ k₁, (k₁ = A ∨ k₁ = B ∨ k₁ = C) → ∃ v₂ v₃,
      dfsVisit g 4 k₁ [] [] = ([k₁, v₂, v₃],
        [{ fromName := v₃, toName := k₁, violations := findViolations v₃ k₁ g }]) ∧
      fillOrder g 4 k₁ [] [] = ([k₁, v₂, v₃], [v₃, v₂, k₁]) ∧
      dfsComponent (transposeGraph g) 4 k₁ [] [] = ([k₁, v₃, v₂], [k₁, v₃, v₂]) ∧
      ∀ x, (x = A ∨ x = B ∨ x = C) ↔ (x = k₁ ∨ x = v₂ ∨ x = v₃) := by
    rintro k₁ (h | h | h)
    all_goals rw [h]
    · exact ⟨B, C, triangle_dfsVisit g A B C hAB hBC hCA hadjA hadjB hadjC,
        triangle_fillOrder g A B C hAB hBC hCA hadjA hadjB hadjC,
        triangle_dfsComponent (transposeGraph g) A B C hAB hBC hCA htA htC htB,
        fun x => by tauto⟩
    · exact ⟨C, A, triangle_dfsVisit g B C A hBC hCA hAB hadjB hadjC hadjA,
        triangle_fillOrder g B C A hBC hCA hAB hadjB hadjC hadjA,
        triangle_dfsComponent (transposeGraph g) B C A hBC hCA hAB htB htA htC,
        fun x => by tauto⟩
    · exact ⟨A, B, triangle_dfsVisit g C A B hCA hAB hBC hadjC hadjA hadjB,
        triangle_fillOrder g C A B hCA hAB hBC hadjC hadjA hadjB,
        triangle_dfsComponent (transposeGraph g) C A B hCA hAB hBC htC htB htA,
        fun x => by tauto⟩
  obtain ⟨k₁, rest, hkeq⟩ : ∃ k₁ rest, keys g = k₁ :: rest := by
    cases hk : keys g with
    | nil =>
      have hA := (hkey_iff A).mpr (Or.inl rfl)
      rw [hk] at hA
      exact absurd hA (List.not_mem_nil A)
    | cons a l => exact ⟨a, l, rfl⟩
  have hk₁ : k₁ = A ∨ k₁ = B ∨ k₁ = C := (hkey_iff k₁).mp (by rw [hkeq]; simp)
  have hrest : ∀ k ∈ rest, k = A ∨ k = B ∨ k = C := by
    intro k hk
    exact (hkey_iff k).mp (by rw [hkeq]; simp [hk])
  obtain ⟨v₂, v₃, hdfs, hfill, hcomp, hcover⟩ := hrot k₁ hk₁
  refine ⟨k₁, v₂, v₃, hcover, ?_, ?_⟩
  · have heq : findStronglyConnectedComponents g =
        sccPop (transposeGraph g) ((transposeGraph g).length + 1)
          (fillLoop g (keys g) [] []).2.reverse [] := rfl
    have hfillL : fillLoop g (keys g) [] [] = ([k₁, v₂, v₃], [v₃, v₂, k₁]) := by
      rw [hkeq]
      have e1 : fillLoop g (k₁ :: rest) [] [] =
          fillLoop g rest (fillOrder g (fuelOf g) k₁ [] []).1
            (fillOrder g (fuelOf g) k₁ [] []).2 := by
        rw [fillLoop, if_neg (List.not_mem_nil k₁)]
      rw [e1, hfuel, hfill]
      exact fillLoop_skip g rest _ _ (fun k hk => by
        rcases (hcover k).mp (hrest k hk) with rfl | rfl | rfl <;> simp)
    rw [heq, hfillL, htlen]
    show sccPop (transposeGraph g) 4 [k₁, v₂, v₃] [] = [[k₁, v₃, v₂]]
    have s1 : sccPop (transposeGraph g) 4 (k₁ :: [v₂, v₃]) [] =
        (dfsComponent (transposeGraph g) 4 k₁ [] []).2 ::
          sccPop (transposeGraph g) 4 [v₂, v₃]
            (dfsComponent (transposeGraph g) 4 k₁ [] []).1 := by
      rw [sccPop, if_neg (List.not_mem_nil k₁)]
    rw [s1, hcomp]
    show [k₁, v₃, v₂] :: sccPop (transposeGraph g) 4 [v₂, v₃] [k₁, v₃, v₂] = [[k₁, v₃, v₂]]
    rw [sccPop_skip (transposeGraph g) 4 [v₂, v₃] [k₁, v₃, v₂] (by
      intro v hv
      simp only [List.mem_cons, List.not_mem_nil, or_false] at hv
      rcases hv with rfl | rfl <;> simp)]
  · have e1 : findFeedbackArcs g =
        (dfsVisit g (fuelOf g) k₁ [] []).2 ++
          feedbackLoop g rest (dfsVisit g (fuelOf g) k₁ [] []).1 := by
      rw [findFeedbackArcs, hkeq, feedbackLoop, if_neg (List.not_mem_nil k₁)]
    rw [e1, hfuel, hdfs]
    show ({ fromName := v₃, toName := k₁, violations := findViolations v₃ k₁ g } : FeedbackArc) ::
        feedbackLoop g rest [k₁, v₂, v₃] =
      [{ fromName := v₃, toName := k₁, violations := findViolations v₃ k₁ g }]
    rw [feedbackLoop_skip g rest [k₁, v₂, v₃] (fun k hk => by
      rcases (hcover k).mp (hrest k hk) with rfl | rfl | rfl <;> simp)]

/-- Claim C4 (confirmed). For every module list (distinct module names,
each dependency's `from` field naming its owning module) whose cross-prefix
dependency edges form, at the prefix level, exactly the three-directory
cycle `A → B → C → A` with one edge per direction, the SCC computation
returns a single component of size 3, `detectViolations` returns exactly
the cross-prefix dependency edges (all three of them), and
`findFeedbackArcs` returns exactly one arc. -/
theorem scenarioC_triangle (mods : List ModuleInfo) (A B C : String)
    (hnames : (mods.map ModuleInfo.name).Nodup)
    (hown : ∀ mo ∈ mods, ∀ dep ∈ mo.dependencies, dep.fromName = mo.name)
    (hAB : A ≠ B) (hBC : B ≠ C) (hCA : C ≠ A)
    (hperm : ((crossDeps mods).map prefixPair).Perm [(A, B), (B, C), (C, A)]) :
    (findStronglyConnectedComponents (buildGraph mods)).map List.length = [3] ∧
    detectViolations (buildGraph mods) = crossDeps mods ∧
    (crossDeps mods).length = 3 ∧
    (findFeedbackArcs (buildGraph mods)).length = 1 := by
  have hknd : (keys (buildGraph mods)).Nodup := (summaryPrefixCount_amended mods).2.1
  have hkey_iff : ∀ x, x ∈ keys (buildGraph mods) ↔ x = A ∨ x = B ∨ x = C := by
    intro x
    rw [(summaryPrefixCount_amended mods).2.2 x]
    constructor
    · rintro ⟨mo, hmo, dep, hdep, hx, hcross⟩
      have hd : dep ∈ crossDeps mods := (mem_crossDeps mods dep).mpr ⟨⟨mo, hmo, hdep⟩, hcross⟩
      have hm : prefixPair dep ∈ [(A, B), (B, C), (C, A)] :=
        hperm.mem_iff.mp (List.mem_map_of_mem prefixPair hd)
      rcases (show prefixPair dep = (A, B) ∨ prefixPair dep = (B, C) ∨ prefixPair dep = (C, A)
          from by simpa using hm) with h | h | h
      · exact Or.inl (hx.symm.trans (congrArg Prod.fst h))
      · exact Or.inr (Or.inl (hx.symm.trans (congrArg Prod.fst h)))
      · exact Or.inr (Or.inr (hx.symm.trans (congrArg Prod.fst h)))
    · intro hx
      have hget : ∀ pr : String × String, pr ∈ [(A, B), (B, C), (C, A)] →
          ∃ mo ∈ mods, ∃ dep ∈ mo.dependencies,
            extractModulePrefix dep.fromName = pr.1 ∧
            extractModulePrefix dep.fromName ≠ extractModulePrefix dep.toName := by
        intro pr hpr
        have hmm : pr ∈ (crossDeps mods).map prefixPair := hperm.symm.mem_iff.mp hpr
        obtain ⟨dep, hd, hpd⟩ := List.mem_map.mp hmm
        obtain ⟨⟨mo, hmo, hdep⟩, hcross⟩ := (mem_crossDeps mods dep).mp hd
        exact ⟨mo, hmo, dep, hdep, congrArg Prod.fst hpd, hcross⟩
      rcases hx with h | h | h
      · have := hget (A, B) (by simp)
        rw [← h] at this
        exact this
      · have := hget (B, C) (by simp)
        rw [← h] at this
        exact this
      · have := hget (C, A) (by simp)
        rw [← h] at this
        exact this
  have hfA : ((crossDeps mods).map prefixPair).filter
      (fun pr => decide (pr.1 = A)) = [(A, B)] := by
    have hp := hperm.filter (fun pr => decide (pr.1 = A))
    rw [show ([(A, B), (B, C), (C, A)] : List (String × String)).filter
        (fun pr => decide (pr.1 = A)) = [(A, B)] from by
      rw [List.filter_cons_of_pos (by simp), List.filter_cons_of_neg (by simp [Ne.symm hAB]),
        List.filter_cons_of_neg (by simp [hCA]), List.filter_nil]] at hp
    exact List.perm_singleton.mp hp
  have hfB : ((crossDeps mods).map prefixPair).filter
      (fun pr => decide (pr.1 = B)) = [(B, C)] := by
    have hp := hperm.filter (fun pr => decide (pr.1 = B))
    rw [show ([(A, B), (B, C), (C, A)] : List (String × String)).filter
        (fun pr => decide (pr.1 = B)) = [(B, C)] from by
      rw [List.filter_cons_of_neg (by simp [hAB]), List.filter_cons_of_pos (by simp),
        List.filter_cons_of_neg (by simp [Ne.symm hBC]), List.filter_nil]] at hp
    exact List.perm_singleton.mp hp
  have hfC : ((crossDeps mods).map prefixPair).filter
      (fun pr => decide (pr.1 = C)) = [(C, A)] := by
    have hp := hperm.filter (fun pr => decide (pr.1 = C))
    rw [show ([(A, B), (B, C), (C, A)] : List (String × String)).filter
        (fun pr => decide (pr.1 = C)) = [(C, A)] from by
      rw [List.filter_cons_of_neg (by simp [Ne.symm hCA]), List.filter_cons_of_neg (by simp [hBC]),
        List.filter_cons_of_pos (by simp), List.filter_nil]] at hp
    exact List.perm_singleton.mp hp
  obtain ⟨k₁, v₂, v₃, hcover, hscc, harcs⟩ :=
    triangleGraph_results (buildGraph mods) A B C hAB hBC hCA hknd hkey_iff
      (adjOf_buildGraph_single mods A B hfA) (adjOf_buildGraph_single mods B C hfB)
      (adjOf_buildGraph_single mods C A hfC)
  refine ⟨?_, ?_, ?_, ?_⟩
  · rw [hscc]
    rfl
  · rw [detectViolations_amended, hscc]
    simp only [List.foldr_cons, List.foldr_nil, List.append_nil]
    rw [if_pos (show 1 < ([k₁, v₃, v₂] : List String).length by simp)]
    have hmpd : modulePrefixedDeps (buildGraph mods) =
        mods.foldr (fun mo acc =>
          mo.dependencies.map (fun dep => (extractModulePrefix mo.name, dep)) ++ acc) [] := by
      rw [modulePrefixedDeps, modules_eq_pairs mods hnames, List.foldr_map]
    rw [hmpd]
    refine taggedFilter_eq [k₁, v₃, v₂] mods hown ?_
    intro mo hmo dep hdep hcross
    have hd : dep ∈ crossDeps mods := (mem_crossDeps mods dep).mpr ⟨⟨mo, hmo, hdep⟩, hcross⟩
    have hm : prefixPair dep ∈ [(A, B), (B, C), (C, A)] :=
      hperm.mem_iff.mp (List.mem_map_of_mem prefixPair hd)
    have hmemc : ∀ x, (x = A ∨ x = B ∨ x = C) → x ∈ ([k₁, v₃, v₂] : List String) := by
      intro x hx
      rcases (hcover x).mp hx with h | h | h <;> simp [h]
    rcases (show prefixPair dep = (A, B) ∨ prefixPair dep = (B, C) ∨ prefixPair dep = (C, A)
        from by simpa using hm) with h | h | h
    · exact ⟨hmemc _ (Or.inl (congrArg Prod.fst h)),
        hmemc _ (Or.inr (Or.inl (congrArg Prod.snd h)))⟩
    · exact ⟨hmemc _ (Or.inr (Or.inl (congrArg Prod.fst h))),
        hmemc _ (Or.inr (Or.inr (congrArg Prod.snd h)))⟩
    · exact ⟨hmemc _ (Or.inr (Or.inr (congrArg Prod.fst h))),
        hmemc _ (Or.inl (congrArg Prod.snd h))⟩
  · have h := hperm.length_eq
    rwa [List.length_map] at h
  · rw [harcs]
    rfl

/-- Scenario C of the spec: three modules in directories `a`, `b`, `c`
forming the cycle `a → b → c → a`. -/
def c4mods : List ModuleInfo :=
  [{ path := "a/x.ts", name := "a/x", modPrefix := "a",
     dependencies := [{ fromName := "a/x", toName := "b/y", importType := .Import, line := 1 }] },
   { path := "b/y.ts", name := "b/y", modPrefix := "b",
     dependencies := [{ fromName := "b/y", toName := "c/z", importType := .Import, line := 2 }] },
   { path := "c/z.ts", name := "c/z", modPrefix := "c",
     dependencies := [{ fromName := "c/z", toName := "a/x", importType := .Import, line := 3 }] }]

/-- Witness for C4: the concrete three-directory cycle `a → b → c → a`
satisfies all the hypotheses, and the analysis returns one SCC of size 3,
the three cross edges as violations, and a single feedback arc. -/
theorem scenarioC_triangle_witness :
    (findStronglyConnectedComponents (buildGraph c4mods)).map List.length = [3] ∧
    detectViolations (buildGraph c4mods) = crossDeps c4mods ∧
    (crossDeps c4mods).length = 3 ∧
    (findFeedbackArcs (buildGraph c4mods)).length = 1 :=
  scenarioC_triangle c4mods "a" "b" "c" (by decide) (by decide) (by decide) (by decide)
    (by decide) (by decide)

/-! ## Claim C2: the feedback arcs are a feedback arc set -/

/-- `pruneGraph` restated over raw endpoint pairs. -/
def prunePairs (g : DependencyGraph) (pairs : List (String × String)) : DependencyGraph :=
  { modules := g.modules, prefixDependencies := pruneAdj pairs g.prefixDependencies }

theorem adjOfA_pruneAdj (pairs : List (String × String))
    (adj : List (String × List String)) (k : String) :
    adjOfA (pruneAdj pairs adj) k =
      (adjOfA adj k).filter (fun t => decide ((k, t) ∉ pairs)) := by
  induction adj with
  | nil => rfl
  | cons p rest ih =>
    obtain ⟨k', s⟩ := p
    show adjOfA ((k', s.filter fun t => decide ((k', t) ∉ pairs)) :: pruneAdj pairs rest) k =
      (adjOfA ((k', s) :: rest) k).filter fun t => decide ((k, t) ∉ pairs)
    by_cases hk : k' = k
    · simp only [adjOfA, if_pos hk]
      subst hk
      rfl
    · simp only [adjOfA, if_neg hk]
      exact ih

theorem map_fst_pruneAdj (pairs : List (String × String))
    (adj : List (String × List String)) :
    (pruneAdj pairs adj).map Prod.fst = adj.map Prod.fst := by
  induction adj with
  | nil => rfl
  | cons p rest ih =>
    show (p.1, p.2.filter fun t => decide ((p.1, t) ∉ pairs)).1 ::
        (pruneAdj pairs rest).map Prod.fst = p.1 :: rest.map Prod.fst
    rw [ih]

theorem adjOf_prunePairs (g : DependencyGraph) (pairs : List (String × String)) (v : String) :
    adjOf (prunePairs g pairs) v = (adjOf g v).filter (fun t => decide ((v, t) ∉ pairs)) :=
  adjOfA_pruneAdj pairs g.prefixDependencies v

theorem keys_prunePairs (g : DependencyGraph) (pairs : List (String × String)) :
    keys (prunePairs g pairs) = keys g :=
  map_fst_pruneAdj pairs g.prefixDependencies

theorem fuelOf_prunePairs (g : DependencyGraph) (pairs : List (String × String)) :
    fuelOf (prunePairs g pairs) = fuelOf g := by
  simp [fuelOf, prunePairs, pruneAdj]

/-- Every arc recorded by the neighbor scan whose source is the scanned
vertex itself points into the recursion stack (it is a back edge). -/
theorem dfsScan_arcs_stack {g : DependencyGraph}
    {recd : String → List String → List String → List String × List FeedbackArc}
    (hmono : ∀ v vis stk, vis ⊆ (recd v vis stk).1)
    (hsrc : ∀ v vis stk, v ∉ vis → ∀ arc ∈ (recd v vis stk).2,
      arc.fromName ∈ (recd v vis stk).1 ∧ arc.fromName ∉ vis) :
    ∀ ns cur vis stk, cur ∈ vis →
      ∀ arc ∈ (dfsScan g recd ns cur vis stk).2, arc.fromName = cur → arc.toName ∈ stk := by
  intro ns
  induction ns with
  | nil =>
    intro cur vis stk _ arc harc
    simp [dfsScan] at harc
  | cons n rest ih =>
    intro cur vis stk hcur arc harc hfrom
    by_cases hv : n ∈ vis
    · by_cases hs : n ∈ stk
      · have heq : (dfsScan g recd (n :: rest) cur vis stk).2 =
            { fromName := cur, toName := n, violations := findViolations cur n g } ::
              (dfsScan g recd rest cur vis stk).2 := by
          simp [dfsScan, if_pos hv, if_pos hs]
        rw [heq] at harc
        rcases List.mem_cons.mp harc with rfl | harc
        · exact hs
        · exact ih cur vis stk hcur arc harc hfrom
      · have heq : dfsScan g recd (n :: rest) cur vis stk =
            dfsScan g recd rest cur vis stk := by
          simp [dfsScan, if_pos hv, if_neg hs]
        rw [heq] at harc
        exact ih cur vis stk hcur arc harc hfrom
    · have heq : (dfsScan g recd (n :: rest) cur vis stk).2 =
          (recd n vis stk).2 ++ (dfsScan g recd rest cur (recd n vis stk).1 stk).2 := by
        simp [dfsScan, if_neg hv]
      rw [heq] at harc
      rcases List.mem_append.mp harc with harc | harc
      · exact absurd hcur (hfrom ▸ (hsrc n vis stk hv arc harc).2)
      · exact ih cur (recd n vis stk).1 stk (hmono n vis stk hcur) arc harc hfrom

/-- Every arc recorded by the neighbor scan has the scanned vertex as its
source, or a source that was unvisited when the scan started. -/
theorem dfsScan_arcs_src {g : DependencyGraph}
    {recd : String → List String → List String → List String × List FeedbackArc}
    (hmono : ∀ v vis stk, vis ⊆ (recd v vis stk).1)
    (hsrc : ∀ v vis stk, v ∉ vis → ∀ arc ∈ (recd v vis stk).2,
      arc.fromName ∈ (recd v vis stk).1 ∧ arc.fromName ∉ vis) :
    ∀ ns cur vis stk, cur ∈ vis →
      ∀ arc ∈ (dfsScan g recd ns cur vis stk).2,
        arc.fromName = cur ∨ arc.fromName ∉ vis := by
  intro ns
  induction ns with
  | nil =>
    intro cur vis stk _ arc harc
    simp [dfsScan] at harc
  | cons n rest ih =>
    intro cur vis stk hcur arc harc
    by_cases hv : n ∈ vis
    · by_cases hs : n ∈ stk
      · have heq : (dfsScan g recd (n :: rest) cur vis stk).2 =
            { fromName := cur, toName := n, violations := findViolations cur n g } ::
              (dfsScan g recd rest cur vis stk).2 := by
          simp [dfsScan, if_pos hv, if_pos hs]
        rw [heq] at harc
        rcases List.mem_cons.mp harc with rfl | harc
        · exact Or.inl rfl
        · exact ih cur vis stk hcur arc harc
      · have heq : dfsScan g recd (n :: rest) cur vis stk =
            dfsScan g recd rest cur vis stk := by
          simp [dfsScan, if_pos hv, if_neg hs]
        rw [heq] at harc
        exact ih cur vis stk hcur arc harc
    · have heq : (dfsScan g recd (n :: rest) cur vis stk).2 =
          (recd n vis stk).2 ++ (dfsScan g recd rest cur (recd n vis stk).1 stk).2 := by
        simp [dfsScan, if_neg hv]
      rw [heq] at harc
      rcases List.mem_append.mp harc with harc | harc
      · exact Or.inr (hsrc n vis stk hv arc harc).2
      · rcases ih cur (recd n vis stk).1 stk (hmono n vis stk hcur) arc harc with h | h
        · exact Or.inl h
        · exact Or.inr (fun hmem => h (hmono n vis stk hmem))

/-- Mirrored scan: the cycle-check scan over the pruned neighbor list
(the edges whose pairs lie in `A` deleted) finds no cycle and computes the
same visited set as the arc-recording scan over the full neighbor list,
provided the recorded pairs all lie in `A` and `A`-pairs whose source is
newly visited by the scan are recorded by the scan. -/
theorem cycleScan_prune_corr {g : DependencyGraph} {A : List (String × String)}
    {recd : String → List String → List String → List String × List FeedbackArc}
    {recc : String → List String → List String → List String × Bool}
    (hmono : ∀ v vis stk, vis ⊆ (recd v vis stk).1)
    (hsrc : ∀ v vis stk, v ∉ vis → ∀ arc ∈ (recd v vis stk).2,
      arc.fromName ∈ (recd v vis stk).1 ∧ arc.fromName ∉ vis)
    (hrec : ∀ v vis stk, v ∉ vis → (∀ x ∈ stk, x ∈ vis) →
      arcPairs (recd v vis stk).2 ⊆ A →
      (∀ pr ∈ A, pr.1 ∈ vis ∨ (pr.1 ∈ (recd v vis stk).1 → pr ∈ arcPairs (recd v vis stk).2)) →
      recc v vis stk = ((recd v vis stk).1, false)) :
    ∀ ns cur vis stk, cur ∈ vis → (∀ x ∈ stk, x ∈ vis) →
      (∀ n ∈ ns, (cur, n) ∈ A → n ∈ vis) →
      arcPairs (dfsScan g recd ns cur vis stk).2 ⊆ A →
      (∀ pr ∈ A, pr.1 ∈ vis ∨
        (pr.1 ∈ (dfsScan g recd ns cur vis stk).1 →
          pr ∈ arcPairs (dfsScan g recd ns cur vis stk).2)) →
      cycleScan recc (ns.filter (fun n => decide ((cur, n) ∉ A))) vis stk =
        ((dfsScan g recd ns cur vis stk).1, false) := by
  intro ns
  induction ns with
  | nil =>
    intro cur vis stk _ _ _ _ _
    rfl
  | cons n rest ih =>
    intro cur vis stk hcur hstk hvisn hS1 hS2
    by_cases hA : (cur, n) ∈ A
    · have hfil : (n :: rest).filter (fun m => decide ((cur, m) ∉ A)) =
          rest.filter (fun m => decide ((cur, m) ∉ A)) :=
        List.filter_cons_of_neg (by simp [hA])
      have hnv : n ∈ vis := hvisn n (by simp) hA
      rw [hfil]
      by_cases hs : n ∈ stk
      · have heq1 : (dfsScan g recd (n :: rest) cur vis stk).1 =
            (dfsScan g recd rest cur vis stk).1 := by
          simp [dfsScan, if_pos hnv, if_pos hs]
        have heq2 : arcPairs (dfsScan g recd (n :: rest) cur vis stk).2 =
            (cur, n) :: arcPairs (dfsScan g recd rest cur vis stk).2 := by
          have h2 : (dfsScan g recd (n :: rest) cur vis stk).2 =
              { fromName := cur, toName := n, violations := findViolations cur n g } ::
                (dfsScan g recd rest cur vis stk).2 := by
            simp [dfsScan, if_pos hnv, if_pos hs]
          rw [h2]
          rfl
        rw [heq2] at hS1
        rw [heq1, heq2] at hS2
        rw [heq1]
        refine ih cur vis stk hcur hstk
          (fun m hm hcm => hvisn m (List.mem_cons_of_mem _ hm) hcm)
          (fun pr hpr => hS1 (List.mem_cons_of_mem _ hpr)) ?_
        intro pr hpr
        by_cases hpv : pr.1 ∈ vis
        · exact Or.inl hpv
        · refine Or.inr (fun h1 => ?_)
          rcases hS2 pr hpr with h | himp
          · exact absurd h hpv
          · rcases List.mem_cons.mp (himp h1) with he | hmem
            · exact absurd (show pr.1 ∈ vis by rw [he]; exact hcur) hpv
            · exact hmem
      · have heqd : dfsScan g recd (n :: rest) cur vis stk =
            dfsScan g recd rest cur vis stk := by
          simp [dfsScan, if_pos hnv, if_neg hs]
        rw [heqd] at hS1 hS2 ⊢
        exact ih cur vis stk hcur hstk
          (fun m hm hcm => hvisn m (List.mem_cons_of_mem _ hm) hcm) hS1 hS2
    · have hfil : (n :: rest).filter (fun m => decide ((cur, m) ∉ A)) =
          n :: rest.filter (fun m => decide ((cur, m) ∉ A)) :=
        List.filter_cons_of_pos (by simp [hA])
      rw [hfil]
      by_cases hv : n ∈ vis
      · by_cases hs : n ∈ stk
        · exfalso
          have h2 : (dfsScan g recd (n :: rest) cur vis stk).2 =
              { fromName := cur, toName := n, violations := findViolations cur n g } ::
                (dfsScan g recd rest cur vis stk).2 := by
            simp [dfsScan, if_pos hv, if_pos hs]
          exact hA (hS1 (by rw [h2]; exact List.mem_cons_self _ _))
        · have heqd : dfsScan g recd (n :: rest) cur vis stk =
              dfsScan g recd rest cur vis stk := by
            simp [dfsScan, if_pos hv, if_neg hs]
          have heqc : cycleScan recc
              (n :: rest.filter (fun m => decide ((cur, m) ∉ A))) vis stk =
              cycleScan recc (rest.filter (fun m => decide ((cur, m) ∉ A))) vis stk := by
            simp [cycleScan, if_pos hv, if_neg hs]
          rw [heqd] at hS1 hS2
          rw [heqc, heqd]
          exact ih cur vis stk hcur hstk
            (fun m hm hcm => hvisn m (List.mem_cons_of_mem _ hm) hcm) hS1 hS2
      · have heqd1 : (dfsScan g recd (n :: rest) cur vis stk).1 =
            (dfsScan g recd rest cur (recd n vis stk).1 stk).1 := by
          simp [dfsScan, if_neg hv]
        have heqd2 : (dfsScan g recd (n :: rest) cur vis stk).2 =
            (recd n vis stk).2 ++ (dfsScan g recd rest cur (recd n vis stk).1 stk).2 := by
          simp [dfsScan, if_neg hv]
        have hpairs : arcPairs (dfsScan g recd (n :: rest) cur vis stk).2 =
            arcPairs (recd n vis stk).2 ++
              arcPairs (dfsScan g recd rest cur (recd n vis stk).1 stk).2 := by
          rw [heqd2, arcPairs_append]
        have hrecn : recc n vis stk = ((recd n vis stk).1, false) := by
          refine hrec n vis stk hv hstk ?_ ?_
          · intro pr hpr
            refine hS1 ?_
            rw [hpairs]
            exact List.mem_append_left _ hpr
          · intro pr hpr
            by_cases hpv : pr.1 ∈ vis
            · exact Or.inl hpv
            · refine Or.inr (fun h1 => ?_)
              rcases hS2 pr hpr with h | himp
              · exact absurd h hpv
              · have h1' : pr.1 ∈ (dfsScan g recd (n :: rest) cur vis stk).1 := by
                  rw [heqd1]
                  exact dfsScan_visited_mono hmono rest cur (recd n vis stk).1 stk h1
                have hmem := himp h1'
                rw [hpairs] at hmem
                rcases List.mem_append.mp hmem with hl | hr
                · exact hl
                · obtain ⟨arc, harc, hf, _⟩ := mem_arcPairs.mp hr
                  rcases dfsScan_arcs_src hmono hsrc rest cur (recd n vis stk).1 stk
                      (hmono n vis stk hcur) arc harc with he | hne
                  · exact absurd (show pr.1 ∈ vis by rw [← hf, he]; exact hcur) hpv
                  · exact absurd (show arc.fromName ∈ (recd n vis stk).1 by
                      rw [hf]; exact h1) hne
        have heqc : cycleScan recc
            (n :: rest.filter (fun m => decide ((cur, m) ∉ A))) vis stk =
            cycleScan recc (rest.filter (fun m => decide ((cur, m) ∉ A)))
              (recd n vis stk).1 stk := by
          simp [cycleScan, if_neg hv, hrecn]
        rw [heqc, heqd1]
        refine ih cur (recd n vis stk).1 stk (hmono n vis stk hcur)
          (fun x hx => hmono n vis stk (hstk x hx))
          (fun m hm hcm => hmono n vis stk (hvisn m (List.mem_cons_of_mem _ hm) hcm))
          ?_ ?_
        · intro pr hpr
          refine hS1 ?_
          rw [hpairs]
          exact List.mem_append_right _ hpr
        · intro pr hpr
          by_cases hp1 : pr.1 ∈ (recd n vis stk).1
          · exact Or.inl hp1
          · refine Or.inr (fun h1 => ?_)
            rcases hS2 pr hpr with h | himp
            · exact absurd (hmono n vis stk h) hp1
            · have h1' : pr.1 ∈ (dfsScan g recd (n :: rest) cur vis stk).1 := by
                rw [heqd1]
                exact h1
              have hmem := himp h1'
              rw [hpairs] at hmem
              rcases List.mem_append.mp hmem with hl | hr
              · obtain ⟨arc, harc, hf, _⟩ := mem_arcPairs.mp hl
                exact absurd (show pr.1 ∈ (recd n vis stk).1 by
                  rw [← hf]; exact (hsrc n vis stk hv arc harc).1) hp1
              · exact hr

/-- Mirrored DFS: `hasCycleDFS` on the pruned graph finds no cycle and
computes the same visited set as `dfsForCycles` on the original graph. -/
theorem hasCycleVisit_prune (g : DependencyGraph) (A : List (String × String))
    (hwfv : ∀ p ∈ g.prefixDependencies, List.Nodup p.2) :
    ∀ f v vis stk, v ∉ vis → (∀ x ∈ stk, x ∈ vis) →
      arcPairs (dfsVisit g f v vis stk).2 ⊆ A →
      (∀ pr ∈ A, pr.1 ∈ vis ∨
        (pr.1 ∈ (dfsVisit g f v vis stk).1 → pr ∈ arcPairs (dfsVisit g f v vis stk).2)) →
      hasCycleVisit (prunePairs g A) f v vis stk = ((dfsVisit g f v vis stk).1, false) := by
  intro f
  induction f with
  | zero =>
    intro v vis stk _ _ _ _
    rfl
  | succ f ih =>
    intro v vis stk hv hstk hV1 hV2
    have heqd1 : (dfsVisit g (f + 1) v vis stk).1 =
        (dfsScan g (dfsVisit g f) (adjOf g v) v (setAdd v vis) (v :: stk)).1 := rfl
    have heqd2 : (dfsVisit g (f + 1) v vis stk).2 =
        (dfsScan g (dfsVisit g f) (adjOf g v) v (setAdd v vis) (v :: stk)).2 := rfl
    have heqc : hasCycleVisit (prunePairs g A) (f + 1) v vis stk =
        cycleScan (hasCycleVisit (prunePairs g A) f)
          ((adjOf g v).filter (fun m => decide ((v, m) ∉ A))) (setAdd v vis) (v :: stk) := by
      show cycleScan (hasCycleVisit (prunePairs g A) f) (adjOf (prunePairs g A) v)
          (setAdd v vis) (v :: stk) = _
      rw [adjOf_prunePairs]
    rw [heqc, heqd1]
    have hsrc : ∀ v' vis' stk', v' ∉ vis' → ∀ arc ∈ (dfsVisit g f v' vis' stk').2,
        arc.fromName ∈ (dfsVisit g f v' vis' stk').1 ∧ arc.fromName ∉ vis' :=
      fun v' vis' stk' hv' => (dfsVisit_arcs_nodup g hwfv f v' vis' stk' hv').2
    have hcur : v ∈ setAdd v vis := by simp
    have hstk' : ∀ x ∈ v :: stk, x ∈ setAdd v vis := by
      intro x hx
      rcases List.mem_cons.mp hx with rfl | hx
      · simp
      · simp [hstk x hx]
    have hvisn : ∀ m ∈ adjOf g v, (v, m) ∈ A → m ∈ setAdd v vis := by
      intro m hm hvm
      have hv1 : v ∈ (dfsVisit g (f + 1) v vis stk).1 := dfsVisit_self_mem g f v vis stk
      rcases hV2 (v, m) hvm with h | himp
      · exact absurd h hv
      · have hmem := himp hv1
        rw [heqd2] at hmem
        obtain ⟨arc, harc, hf1, hf2⟩ := mem_arcPairs.mp hmem
        have hstk2 := dfsScan_arcs_stack (fun a b c => dfsVisit_visited_mono g f a b c)
          hsrc (adjOf g v) v (setAdd v vis) (v :: stk) hcur arc harc hf1
        exact hstk' m (by rw [show m = arc.toName from hf2.symm]; exact hstk2)
    have hS1 : arcPairs
        (dfsScan g (dfsVisit g f) (adjOf g v) v (setAdd v vis) (v :: stk)).2 ⊆ A := by
      intro pr hpr
      exact hV1 (by rw [heqd2]; exact hpr)
    have hS2 : ∀ pr ∈ A, pr.1 ∈ setAdd v vis ∨
        (pr.1 ∈ (dfsScan g (dfsVisit g f) (adjOf g v) v (setAdd v vis) (v :: stk)).1 →
          pr ∈ arcPairs (dfsScan g (dfsVisit g f) (adjOf g v) v (setAdd v vis) (v :: stk)).2) := by
      intro pr hpr
      rcases hV2 pr hpr with h | himp
      · exact Or.inl (subset_setAdd h)
      · refine Or.inr (fun h1 => ?_)
        have hmem := himp (by rw [heqd1]; exact h1)
        rw [heqd2] at hmem
        exact hmem
    exact cycleScan_prune_corr (fun a b c => dfsVisit_visited_mono g f a b c) hsrc
      (fun v' vis' stk' => ih v' vis' stk') (adjOf g v) v (setAdd v vis) (v :: stk)
      hcur hstk' hvisn hS1 hS2

/-- Mirrored top-level loop: `isAcyclic`'s loop on the pruned graph keeps
finding no cycle while mirroring `findFeedbackArcs`'s loop. -/
theorem acyclicLoop_prune (g : DependencyGraph) (A : List (String × String))
    (hwfv : ∀ p ∈ g.prefixDependencies, List.Nodup p.2) :
    ∀ ks vis,
      arcPairs (feedbackLoop g ks vis) ⊆ A →
      (∀ pr ∈ A, pr.1 ∈ vis ∨ pr ∈ arcPairs (feedbackLoop g ks vis)) →
      acyclicLoop (prunePairs g A) ks vis = true := by
  intro ks
  induction ks with
  | nil =>
    intro vis _ _
    rfl
  | cons p rest ih =>
    intro vis hS1 hS2
    by_cases hv : p ∈ vis
    · have heqf : feedbackLoop g (p :: rest) vis = feedbackLoop g rest vis := by
        simp [feedbackLoop, if_pos hv]
      have heqa : acyclicLoop (prunePairs g A) (p :: rest) vis =
          acyclicLoop (prunePairs g A) rest vis := by
        simp [acyclicLoop, if_pos hv]
      rw [heqf] at hS1 hS2
      rw [heqa]
      exact ih vis hS1 hS2
    · have heqf : feedbackLoop g (p :: rest) vis =
          (dfsVisit g (fuelOf g) p vis []).2 ++
            feedbackLoop g rest (dfsVisit g (fuelOf g) p vis []).1 := by
        simp [feedbackLoop, if_neg hv]
      have hpairs : arcPairs (feedbackLoop g (p :: rest) vis) =
          arcPairs (dfsVisit g (fuelOf g) p vis []).2 ++
            arcPairs (feedbackLoop g rest (dfsVisit g (fuelOf g) p vis []).1) := by
        rw [heqf, arcPairs_append]
      have hsrcv := (dfsVisit_arcs_nodup g hwfv (fuelOf g) p vis [] hv).2
      have hsrcl := (feedbackLoop_arcs_nodup g hwfv rest (dfsVisit g (fuelOf g) p vis []).1).2
      have hvrun : hasCycleVisit (prunePairs g A) (fuelOf g) p vis [] =
          ((dfsVisit g (fuelOf g) p vis []).1, false) := by
        refine hasCycleVisit_prune g A hwfv (fuelOf g) p vis [] hv (by simp) ?_ ?_
        · intro pr hpr
          refine hS1 ?_
          rw [hpairs]
          exact List.mem_append_left _ hpr
        · intro pr hpr
          by_cases hpv : pr.1 ∈ vis
          · exact Or.inl hpv
          · refine Or.inr (fun h1 => ?_)
            rcases hS2 pr hpr with h | hmem
            · exact absurd h hpv
            · rw [hpairs] at hmem
              rcases List.mem_append.mp hmem with hl | hr
              · exact hl
              · obtain ⟨arc, harc, hf, _⟩ := mem_arcPairs.mp hr
                exact absurd (show arc.fromName ∈ (dfsVisit g (fuelOf g) p vis []).1 by
                  rw [hf]; exact h1) (fun hin => hsrcl arc harc hin)
      have heqa : acyclicLoop (prunePairs g A) (p :: rest) vis =
          acyclicLoop (prunePairs g A) rest (dfsVisit g (fuelOf g) p vis []).1 := by
        have hfg : fuelOf (prunePairs g A) = fuelOf g := fuelOf_prunePairs g A
        simp [acyclicLoop, if_neg hv, hfg, hvrun]
      rw [heqa]
      refine ih (dfsVisit g (fuelOf g) p vis []).1 ?_ ?_
      · intro pr hpr
        refine hS1 ?_
        rw [hpairs]
        exact List.mem_append_right _ hpr
      · intro pr hpr
        by_cases hp1 : pr.1 ∈ (dfsVisit g (fuelOf g) p vis []).1
        · exact Or.inl hp1
        · refine Or.inr ?_
          rcases hS2 pr hpr with h | hmem
          · exact absurd (dfsVisit_visited_mono g (fuelOf g) p vis [] h) hp1
          · rw [hpairs] at hmem
            rcases List.mem_append.mp hmem with hl | hr
            · obtain ⟨arc, harc, hf, _⟩ := mem_arcPairs.mp hl
              exact absurd (show pr.1 ∈ (dfsVisit g (fuelOf g) p vis []).1 by
                rw [← hf]; exact (hsrcv arc harc).1) hp1
            · exact hr

/-- Claim C2 (confirmed). For every dependency graph (well-formed in the
sense guaranteed by the TypeScript `Map`/`Set` types), the arcs returned
by `findFeedbackArcs` are a feedback arc set: deleting exactly those
(from, to) edges from the prefix adjacency yields a graph on which
`isAcyclic` returns `true`. -/
theorem findFeedbackArcs_feedback_arc_set (g : DependencyGraph) (hwf : WellFormed g) :
    isAcyclic (pruneGraph g (findFeedbackArcs g)) = true := by
  have hpg : pruneGraph g (findFeedbackArcs g) =
      prunePairs g (arcPairs (findFeedbackArcs g)) := rfl
  rw [hpg]
  show acyclicLoop (prunePairs g (arcPairs (findFeedbackArcs g)))
      (keys (prunePairs g (arcPairs (findFeedbackArcs g)))) [] = true
  rw [keys_prunePairs]
  exact acyclicLoop_prune g (arcPairs (findFeedbackArcs g)) hwf.2 (keys g) []
    (fun pr hpr => hpr) (fun pr hpr => Or.inr hpr)

/-- Witness for C2 at the two-directory-cycle scenario: the built graph is
well-formed, and removing its single feedback arc makes it acyclic. -/
theorem findFeedbackArcs_feedback_arc_set_witness :
    WellFormed (buildGraph scenarioB) ∧
    isAcyclic (pruneGraph (buildGraph scenarioB)
      (findFeedbackArcs (buildGraph scenarioB))) = true :=
  ⟨⟨by decide, by decide⟩,
    findFeedbackArcs_feedback_arc_set (buildGraph scenarioB) ⟨by decide, by decide⟩⟩

end TsModuleIsolation
